import Mathlib

set_option linter.unusedSectionVars false

/-!
Shallow embedding of `composable_paxos.py`: a single-decree Paxos core made of
a Proposer, an Acceptor, a Learner and a composite instance.  Node identifiers
are drawn from an arbitrary totally ordered type `U` (the Python code only
requires that uids be comparable; the examples use strings) and proposal
values from an arbitrary type `V` with decidable equality (Python values are
opaque and only compared with `==`).

Python mutation is rendered as explicit state passing: each handler takes the
role state and the message and returns the new state together with the
outbound message, if any.  Handlers that can raise at runtime (an attribute of
`None` being used, a missing dictionary key, a failed `assert`, or the
dispatcher meeting an unsupported message class) return an `HResult` whose
`err` arm records the error kind.  A missing optional proposal id compares
strictly below every present id, matching the Python-2 `None`-vs-tuple
ordering the source relies on.
-/

structure ProposalID (U : Type) where
  number : Nat
  uid : U
deriving DecidableEq

variable {U V : Type} [LinearOrder U] [DecidableEq U] [DecidableEq V]

/-- Strict order on proposal ids: lexicographic on `(number, uid)`, exactly
the Python tuple comparison used by the source. -/
def pidLt (a b : ProposalID U) : Prop :=
  a.number < b.number ∨ (a.number = b.number ∧ a.uid < b.uid)

instance (a b : ProposalID U) : Decidable (pidLt a b) := by
  unfold pidLt
  exact inferInstance

/-- Non-strict order on proposal ids. -/
def pidLe (a b : ProposalID U) : Prop :=
  pidLt a b ∨ a = b

instance (a b : ProposalID U) : Decidable (pidLe a b) := by
  unfold pidLe
  exact inferInstance

/-- Strict comparison on optional proposal ids, with an absent id strictly below every
present id and two absent ids equal (Python 2 `None` vs tuple). -/
def ltOpt : Option (ProposalID U) → Option (ProposalID U) → Prop
  | none, none => False
  | none, some _ => True
  | some _, none => False
  | some a, some b => pidLt a b

instance (a b : Option (ProposalID U)) : Decidable (ltOpt a b) := by
  cases a <;> cases b <;> unfold ltOpt <;> exact inferInstance

/-- Non-strict comparison on optional proposal ids, absent below every present id. -/
def leOpt : Option (ProposalID U) → Option (ProposalID U) → Prop
  | none, _ => True
  | some _, none => False
  | some a, some b => pidLe a b

instance (a b : Option (ProposalID U)) : Decidable (leOpt a b) := by
  cases a <;> cases b <;> unfold leOpt <;> exact inferInstance

/-- Comparison `p ≥ q` for a present id `p` against an optional id `q`
(`msg.proposal_id >= self.promised_id` in the source). -/
def geOpt (p : ProposalID U) (q : Option (ProposalID U)) : Prop :=
  match q with
  | none => True
  | some x => pidLe x p

instance (p : ProposalID U) (q : Option (ProposalID U)) : Decidable (geOpt p q) := by
  unfold geOpt
  cases q <;> exact inferInstance

/-- Comparison `p ≤ q` for a present id `p` against an optional id `q`; false when `q`
is absent (`msg.proposal_id <= last_pn` in the Learner, Python 2 ordering). -/
def pidLeOpt (p : ProposalID U) (q : Option (ProposalID U)) : Prop :=
  match q with
  | none => False
  | some x => pidLe p x

instance (p : ProposalID U) (q : Option (ProposalID U)) : Decidable (pidLeOpt p q) := by
  unfold pidLeOpt
  cases q <;> exact inferInstance

/-- The `Prepare` message. -/
structure Prepare (U : Type) where
  from_uid : U
  proposal_id : ProposalID U
deriving DecidableEq

/-- The `Promise` message; `last_accepted_id` and `last_accepted_value` are the
acceptor's optional prior acceptance. -/
structure Promise (U V : Type) where
  from_uid : U
  proposer_uid : U
  proposal_id : ProposalID U
  last_accepted_id : Option (ProposalID U)
  last_accepted_value : Option V
deriving DecidableEq

/-- The `Accept` message. -/
structure Accept (U V : Type) where
  from_uid : U
  proposal_id : ProposalID U
  proposal_value : V
deriving DecidableEq

/-- The `Accepted` message. -/
structure Accepted (U V : Type) where
  from_uid : U
  proposal_id : ProposalID U
  proposal_value : V
deriving DecidableEq

/-- The `Nack` message.  The source only ever builds Nacks whose
`promised_proposal_id` is a present id. -/
structure Nack (U : Type) where
  from_uid : U
  proposer_uid : U
  proposal_id : ProposalID U
  promised_proposal_id : ProposalID U
deriving DecidableEq

/-- The `Resolution` message. -/
structure Resolution (U V : Type) where
  from_uid : U
  value : V
deriving DecidableEq

/-- Tagged union of the message classes, used by the `receive` dispatchers. -/
inductive PaxosMsg (U V : Type) where
  | prepare (m : Prepare U)
  | promise (m : Promise U V)
  | accept (m : Accept U V)
  | accepted (m : Accepted U V)
  | nack (m : Nack U)
  | resolution (m : Resolution U V)
deriving DecidableEq

/-- Runtime failures of the Python source: `InvalidMessageError` from the
dispatcher, a `TypeError`-style failure from using a `None` attribute, a
`KeyError` from a missing dict/set entry, and a failed `assert`. -/
inductive PaxosError where
  | invalidMessage
  | typeError
  | keyError
  | assertionError
deriving DecidableEq

/-- Result of one handler call: the updated state plus an optional outbound
message, or the state at the point of a raised error. -/
inductive HResult (σ μ : Type) where
  | ok (state : σ) (out : Option μ)
  | err (state : σ) (e : PaxosError)
deriving DecidableEq

/-- Python `set.add`: insert unless already a member. -/
def setAdd (s : List U) (x : U) : List U :=
  if x ∈ s then s else x :: s

/-- Python `set.remove` minus the `KeyError` (callers check membership). -/
def listRemove : List U → U → List U
  | [], _ => []
  | x :: t, a => if a = x then t else x :: listRemove t a

/-- Python `dict.get`. -/
def alGet {α β : Type} [DecidableEq α] : List (α × β) → α → Option β
  | [], _ => none
  | (k', v') :: t, k => if k = k' then some v' else alGet t k

/-- Python `dict[k] = v`: replace in place, or append a fresh binding. -/
def alSet {α β : Type} [DecidableEq α] : List (α × β) → α → β → List (α × β)
  | [], k, v => [(k, v)]
  | (k', v') :: t, k, v => if k = k' then (k, v) :: t else (k', v') :: alSet t k v

/-- Python `del dict[k]`. -/
def alErase {α β : Type} [DecidableEq α] : List (α × β) → α → List (α × β)
  | [], _ => []
  | (k', v') :: t, k => if k = k' then t else (k', v') :: alErase t k

/-- Proposer state, one field per Python attribute. -/
structure Proposer (U V : Type) where
  network_uid : U
  quorum_size : Nat
  leader : Bool
  proposed_value : Option V
  proposal_id : ProposalID U
  highest_proposal_id : ProposalID U
  highest_accepted_id : Option (ProposalID U)
  promises_received : Option (List U)
  nacks_received : Option (List U)
  current_prepare_msg : Option (Prepare U)
  current_accept_msg : Option (Accept U V)
deriving DecidableEq

/-- Constructor `Proposer.__init__`. -/
def Proposer.init (uid : U) (quorum : Nat) : Proposer U V :=
  { network_uid := uid
    quorum_size := quorum
    leader := false
    proposed_value := none
    proposal_id := ⟨0, uid⟩
    highest_proposal_id := ⟨0, uid⟩
    highest_accepted_id := none
    promises_received := none
    nacks_received := none
    current_prepare_msg := none
    current_accept_msg := none }

/-- Method `Proposer.propose_value`. -/
def Proposer.propose_value (p : Proposer U V) (v : V) :
    Proposer U V × Option (Accept U V) :=
  match p.proposed_value with
  | some _ => (p, none)
  | none =>
      let p₁ := { p with proposed_value := some v }
      if p₁.leader then
        let acc : Accept U V := ⟨p₁.network_uid, p₁.proposal_id, v⟩
        ({ p₁ with current_accept_msg := some acc }, some acc)
      else (p₁, none)

/-- Method `Proposer.prepare`. -/
def Proposer.prepare (p : Proposer U V) : Proposer U V × Prepare U :=
  let pid : ProposalID U := ⟨p.highest_proposal_id.number + 1, p.network_uid⟩
  let m : Prepare U := ⟨p.network_uid, pid⟩
  ({ p with leader := false
            promises_received := some []
            nacks_received := some []
            proposal_id := pid
            highest_proposal_id := pid
            current_prepare_msg := some m }, m)

/-- Method `Proposer.observe_proposal`. -/
def Proposer.observe_proposal (p : Proposer U V) (pid : ProposalID U) : Proposer U V :=
  if pidLt p.highest_proposal_id pid then { p with highest_proposal_id := pid } else p

/-- Method `Proposer.receive_nack`. -/
def Proposer.receive_nack (p : Proposer U V) (msg : Nack U) :
    Proposer U V × Option (Prepare U) :=
  let p₁ := p.observe_proposal msg.promised_proposal_id
  if msg.proposal_id = p₁.proposal_id then
    match p₁.nacks_received with
    | none => (p₁, none)
    | some ns =>
        let ns' := setAdd ns msg.from_uid
        let p₂ := { p₁ with nacks_received := some ns' }
        if ns'.length = p₂.quorum_size then
          let r := p₂.prepare
          (r.1, some r.2)
        else (p₂, none)
  else (p₁, none)

/-- Method `Proposer.receive_promise`.  The membership test
`msg.from_uid not in self.promises_received` raises in Python when
`promises_received` is still `None`; that path is the `err` arm (the guard on
`leader` and on the proposal id short-circuits before the membership test). -/
def Proposer.receive_promise (p : Proposer U V) (msg : Promise U V) :
    HResult (Proposer U V) (Accept U V) :=
  let p₁ := p.observe_proposal msg.proposal_id
  if p₁.leader = false ∧ msg.proposal_id = p₁.proposal_id then
    match p₁.promises_received with
    | none => .err p₁ .typeError
    | some pr =>
        if msg.from_uid ∈ pr then .ok p₁ none
        else
          let pr' := setAdd pr msg.from_uid
          let p₂ := { p₁ with promises_received := some pr' }
          let p₃ :=
            if ltOpt p₂.highest_accepted_id msg.last_accepted_id then
              { p₂ with highest_accepted_id := msg.last_accepted_id
                        proposed_value :=
                          match msg.last_accepted_value with
                          | some v => some v
                          | none => p₂.proposed_value }
            else p₂
          if pr'.length = p₃.quorum_size then
            let p₄ := { p₃ with leader := true }
            match p₄.proposed_value with
            | some v =>
                let acc : Accept U V := ⟨p₄.network_uid, p₄.proposal_id, v⟩
                .ok { p₄ with current_accept_msg := some acc } (some acc)
            | none => .ok p₄ none
          else .ok p₃ none
  else .ok p₁ none

/-- Acceptor state. -/
structure Acceptor (U V : Type) where
  network_uid : U
  promised_id : Option (ProposalID U)
  accepted_id : Option (ProposalID U)
  accepted_value : Option V
deriving DecidableEq

/-- Constructor `Acceptor.__init__`; the three optionals are the rehydrated durable state. -/
def Acceptor.init (uid : U) (promised accepted : Option (ProposalID U))
    (value : Option V) : Acceptor U V :=
  ⟨uid, promised, accepted, value⟩

/-- Method `Acceptor.receive_prepare`.  Here `msg.proposal_id >= self.promised_id` holds
vacuously when nothing was promised yet; in the Nack branch the promised id is
necessarily present. -/
def Acceptor.receive_prepare (a : Acceptor U V) (msg : Prepare U) :
    Acceptor U V × PaxosMsg U V :=
  match a.promised_id with
  | none =>
      ({ a with promised_id := some msg.proposal_id },
       .promise ⟨a.network_uid, msg.from_uid, msg.proposal_id, a.accepted_id,
                 a.accepted_value⟩)
  | some pp =>
      if pidLe pp msg.proposal_id then
        ({ a with promised_id := some msg.proposal_id },
         .promise ⟨a.network_uid, msg.from_uid, msg.proposal_id, a.accepted_id,
                   a.accepted_value⟩)
      else
        (a, .nack ⟨a.network_uid, msg.from_uid, msg.proposal_id, pp⟩)

/-- Method `Acceptor.receive_accept`. -/
def Acceptor.receive_accept (a : Acceptor U V) (msg : Accept U V) :
    Acceptor U V × PaxosMsg U V :=
  match a.promised_id with
  | none =>
      ({ a with promised_id := some msg.proposal_id
                accepted_id := some msg.proposal_id
                accepted_value := some msg.proposal_value },
       .accepted ⟨a.network_uid, msg.proposal_id, msg.proposal_value⟩)
  | some pp =>
      if pidLe pp msg.proposal_id then
        ({ a with promised_id := some msg.proposal_id
                  accepted_id := some msg.proposal_id
                  accepted_value := some msg.proposal_value },
         .accepted ⟨a.network_uid, msg.proposal_id, msg.proposal_value⟩)
      else
        (a, .nack ⟨a.network_uid, msg.from_uid, msg.proposal_id, pp⟩)

/-- One input to a standalone Acceptor. -/
inductive AcceptorOp (U V : Type) where
  | prep (m : Prepare U)
  | acc (m : Accept U V)
deriving DecidableEq

/-- State after one Acceptor input. -/
def Acceptor.step (a : Acceptor U V) : AcceptorOp U V → Acceptor U V
  | .prep m => (a.receive_prepare m).1
  | .acc m => (a.receive_accept m).1

/-- State after a sequence of Acceptor inputs. -/
def Acceptor.run (a : Acceptor U V) (ops : List (AcceptorOp U V)) : Acceptor U V :=
  ops.foldl Acceptor.step a

/-- Class `Learner.ProposalStatus`.  Counters are integers, as in Python. -/
structure ProposalStatus (U V : Type) where
  accept_count : Int
  retain_count : Int
  acceptors : List U
  value : V
deriving DecidableEq

/-- Learner state.  `proposals` and `acceptors` are set to `None` once the
final value is chosen, exactly as in the source. -/
structure Learner (U V : Type) where
  network_uid : U
  quorum_size : Nat
  proposals : Option (List (ProposalID U × ProposalStatus U V))
  acceptors : Option (List (U × ProposalID U))
  final_value : Option V
  final_acceptors : Option (List U)
  final_proposal_id : Option (ProposalID U)
deriving DecidableEq

/-- Constructor `Learner.__init__`. -/
def Learner.init (uid : U) (quorum : Nat) : Learner U V :=
  { network_uid := uid
    quorum_size := quorum
    proposals := some []
    acceptors := some []
    final_value := none
    final_acceptors := none
    final_proposal_id := none }

/-- Steps 4–7 of `Learner.receive_accepted`: insert a fresh `ProposalStatus`
when the proposal is new, check the value assertion, bump both counters,
record the acceptor, and resolve on reaching quorum.  `l₂.proposals` is
`some props` at every call site. -/
def Learner.countVote (l₂ : Learner U V)
    (props : List (ProposalID U × ProposalStatus U V)) (msg : Accepted U V) :
    HResult (Learner U V) (Resolution U V) :=
  let ps := (alGet props msg.proposal_id).getD ⟨0, 0, [], msg.proposal_value⟩
  let props₀ :=
    if (alGet props msg.proposal_id).isSome then props
    else alSet props msg.proposal_id ⟨0, 0, [], msg.proposal_value⟩
  if msg.proposal_value = ps.value then
    let ps' := { ps with accept_count := ps.accept_count + 1
                         retain_count := ps.retain_count + 1
                         acceptors := setAdd ps.acceptors msg.from_uid }
    let props' := alSet props₀ msg.proposal_id ps'
    if ps'.accept_count = (l₂.quorum_size : Int) then
      .ok { l₂ with proposals := none
                    acceptors := none
                    final_proposal_id := some msg.proposal_id
                    final_value := some msg.proposal_value
                    final_acceptors := some ps'.acceptors }
         (some ⟨l₂.network_uid, msg.proposal_value⟩)
    else .ok { l₂ with proposals := some props' } none
  else .err { l₂ with proposals := some props₀ } .assertionError

/-- Method `Learner.receive_accepted`. -/
def Learner.receive_accepted (l : Learner U V) (msg : Accepted U V) :
    HResult (Learner U V) (Resolution U V) :=
  match l.final_value with
  | some fv =>
      if geOpt msg.proposal_id l.final_proposal_id ∧ msg.proposal_value = fv then
        match l.final_acceptors with
        | none => .err l .typeError
        | some fa =>
            .ok { l with final_acceptors := some (setAdd fa msg.from_uid) }
               (some ⟨l.network_uid, fv⟩)
      else .ok l (some ⟨l.network_uid, fv⟩)
  | none =>
      match l.acceptors with
      | none => .err l .typeError
      | some accMap =>
          let last_pn := alGet accMap msg.from_uid
          if pidLeOpt msg.proposal_id last_pn then .ok l none
          else
            let l₁ := { l with acceptors := some (alSet accMap msg.from_uid msg.proposal_id) }
            match l₁.proposals with
            | none => .err l₁ .typeError
            | some props =>
                match last_pn with
                | none => Learner.countVote l₁ props msg
                | some lp =>
                    match alGet props lp with
                    | none => .err l₁ .keyError
                    | some ps =>
                        let ps₁ := { ps with retain_count := ps.retain_count - 1 }
                        if msg.from_uid ∈ ps₁.acceptors then
                          let ps₂ :=
                            { ps₁ with acceptors := listRemove ps₁.acceptors msg.from_uid }
                          let props₁ := alSet props lp ps₂
                          let props₂ :=
                            if ps₂.retain_count = 0 then alErase props₁ lp else props₁
                          Learner.countVote { l₁ with proposals := some props₂ } props₂ msg
                        else
                          .err { l₁ with proposals := some (alSet props lp ps₁) } .keyError

/-- Final state and per-call outputs of a sequence of `receive_accepted`
calls; an error aborts the run. -/
def Learner.run :
    Learner U V → List (Accepted U V) →
      Except PaxosError (Learner U V × List (Option (Resolution U V)))
  | l, [] => .ok (l, [])
  | l, m :: ms =>
      match l.receive_accepted m with
      | .ok l' out =>
          match Learner.run l' ms with
          | .ok (l'', outs) => .ok (l'', out :: outs)
          | .error e => .error e
      | .err _ e => .error e

/-- Composite instance: the multiple inheritance of the source is rendered as
one record owning each role (the Python object carries the union of the three
attribute sets; no attribute is shared except `network_uid` and
`quorum_size`, which the constructor sets to the same values). -/
structure PaxosInstance (U V : Type) where
  prop : Proposer U V
  acc : Acceptor U V
  lrn : Learner U V
deriving DecidableEq

/-- Constructor `PaxosInstance.__init__`. -/
def PaxosInstance.init (uid : U) (quorum : Nat)
    (promised accepted : Option (ProposalID U)) (value : Option V) :
    PaxosInstance U V :=
  ⟨Proposer.init uid quorum, Acceptor.init uid promised accepted value,
   Learner.init uid quorum⟩

/-- Composite `receive_prepare`: observe the proposal, then defer to the
Acceptor handler. -/
def PaxosInstance.receive_prepare (pi : PaxosInstance U V) (msg : Prepare U) :
    PaxosInstance U V × PaxosMsg U V :=
  let prop' := pi.prop.observe_proposal msg.proposal_id
  let r := pi.acc.receive_prepare msg
  ({ pi with prop := prop', acc := r.1 }, r.2)

/-- Composite `receive_accept`: observe the proposal, then defer to the
Acceptor handler. -/
def PaxosInstance.receive_accept (pi : PaxosInstance U V) (msg : Accept U V) :
    PaxosInstance U V × PaxosMsg U V :=
  let prop' := pi.prop.observe_proposal msg.proposal_id
  let r := pi.acc.receive_accept msg
  ({ pi with prop := prop', acc := r.1 }, r.2)

/-- Composite `receive_promise`: inherited Proposer handler. -/
def PaxosInstance.receive_promise (pi : PaxosInstance U V) (msg : Promise U V) :
    HResult (PaxosInstance U V) (Accept U V) :=
  match pi.prop.receive_promise msg with
  | .ok p' out => .ok { pi with prop := p' } out
  | .err p' e => .err { pi with prop := p' } e

/-- Composite `receive_nack`: inherited Proposer handler. -/
def PaxosInstance.receive_nack (pi : PaxosInstance U V) (msg : Nack U) :
    PaxosInstance U V × Option (Prepare U) :=
  let r := pi.prop.receive_nack msg
  ({ pi with prop := r.1 }, r.2)

/-- Composite `receive_accepted`: inherited Learner handler. -/
def PaxosInstance.receive_accepted (pi : PaxosInstance U V) (msg : Accepted U V) :
    HResult (PaxosInstance U V) (Resolution U V) :=
  match pi.lrn.receive_accepted msg with
  | .ok l' out => .ok { pi with lrn := l' } out
  | .err l' e => .err { pi with lrn := l' } e

/-- Dispatcher `MessageHandler.receive` for a standalone Proposer: only Promise and Nack
have handlers; everything else raises `InvalidMessageError`. -/
def Proposer.receive (p : Proposer U V) (msg : PaxosMsg U V) :
    HResult (Proposer U V) (PaxosMsg U V) :=
  match msg with
  | .promise m =>
      match p.receive_promise m with
      | .ok p' out => .ok p' (out.map .accept)
      | .err p' e => .err p' e
  | .nack m =>
      let r := p.receive_nack m
      .ok r.1 (r.2.map .prepare)
  | _ => .err p .invalidMessage

/-- Dispatcher `MessageHandler.receive` for a standalone Acceptor: only Prepare and
Accept have handlers. -/
def Acceptor.receive (a : Acceptor U V) (msg : PaxosMsg U V) :
    HResult (Acceptor U V) (PaxosMsg U V) :=
  match msg with
  | .prepare m =>
      let r := a.receive_prepare m
      .ok r.1 (some r.2)
  | .accept m =>
      let r := a.receive_accept m
      .ok r.1 (some r.2)
  | _ => .err a .invalidMessage

/-- Dispatcher `MessageHandler.receive` for a standalone Learner: only Accepted has a
handler. -/
def Learner.receive (l : Learner U V) (msg : PaxosMsg U V) :
    HResult (Learner U V) (PaxosMsg U V) :=
  match msg with
  | .accepted m =>
      match l.receive_accepted m with
      | .ok l' out => .ok l' (out.map .resolution)
      | .err l' e => .err l' e
  | _ => .err l .invalidMessage

/-- Dispatcher `MessageHandler.receive` for the composite: all five protocol messages
have handlers; only Resolution raises. -/
def PaxosInstance.receive (pi : PaxosInstance U V) (msg : PaxosMsg U V) :
    HResult (PaxosInstance U V) (PaxosMsg U V) :=
  match msg with
  | .prepare m =>
      let r := pi.receive_prepare m
      .ok r.1 (some r.2)
  | .accept m =>
      let r := pi.receive_accept m
      .ok r.1 (some r.2)
  | .promise m =>
      match pi.receive_promise m with
      | .ok pi' out => .ok pi' (out.map .accept)
      | .err pi' e => .err pi' e
  | .nack m =>
      let r := pi.receive_nack m
      .ok r.1 (r.2.map .prepare)
  | .accepted m =>
      match pi.receive_accepted m with
      | .ok pi' out => .ok pi' (out.map .resolution)
      | .err pi' e => .err pi' e
  | .resolution _ => .err pi .invalidMessage

/-- Durable-state invariant of an Acceptor: the accepted id, when present,
does not exceed the promised id (in particular a promise exists), and the
accepted value is present exactly when the accepted id is. -/
def AccInv (a : Acceptor U V) : Prop :=
  leOpt a.accepted_id a.promised_id ∧ (a.accepted_value.isSome ↔ a.accepted_id.isSome)

/-- Recognizer for Nack messages, used to state the frame conditions. -/
def PaxosMsg.isNack : PaxosMsg U V → Bool
  | .nack _ => true
  | _ => false

/-- A concrete prepared Proposer (quorum one) used by witness theorems. -/
def sampleProposer : Proposer Nat Nat := ((Proposer.init 1 1).prepare).1

/-- A concrete Promise for the current round of `sampleProposer`, carrying a
prior acceptance. -/
def samplePromise : Promise Nat Nat := ⟨10, 1, ⟨1, 1⟩, some ⟨0, 2⟩, some 42⟩

/-- A fresh concrete Acceptor used by witness theorems. -/
def sampleAcceptor : Acceptor Nat Nat := Acceptor.init 1 none none none

/-- A concrete input sequence for `sampleAcceptor`: a Prepare then an Accept
at the same proposal id. -/
def sampleOps : List (AcceptorOp Nat Nat) := [.prep ⟨2, ⟨1, 2⟩⟩, .acc ⟨2, ⟨1, 2⟩, 9⟩]

/-- The Proposer state after `sampleProposer` processes `samplePromise`:
leader with the adopted value. -/
def samplePromisedProposer : Proposer Nat Nat :=
  ⟨1, 1, true, some 42, ⟨1, 1⟩, ⟨1, 1⟩, some ⟨0, 2⟩, some [10], some [],
   some ⟨1, ⟨1, 1⟩⟩, some ⟨1, ⟨1, 1⟩, 42⟩⟩

/-- A concrete Accepted message used by witness theorems. -/
def sampleAccepted : Accepted Nat Nat := ⟨10, ⟨1, 1⟩, 42⟩

/-- The Learner state after `Learner.init 1 1` processes `sampleAccepted`:
resolved on value 42. -/
def sampleResolvedLearner : Learner Nat Nat :=
  ⟨1, 1, none, none, some 42, some [10], some ⟨1, 1⟩⟩

/-- Keys of an association list. -/
def alKeys {α β : Type} (l : List (α × β)) : List α := l.map Prod.fst

/-- Sum of the `retain_count` fields over the proposals map. -/
def sumRetain (props : List (ProposalID U × ProposalStatus U V)) : Int :=
  (props.map (fun kv => kv.2.retain_count)).sum

/-- Bookkeeping invariant of an unresolved Learner, relating the proposals
map and the acceptors map: keys are unique, each recorded vote points to a
proposal entry listing that acceptor, each proposal entry's acceptors are
exactly the acceptors whose recorded vote is that proposal, `retain_count`
equals the entry's acceptor count, and the retain counts sum to the size of
the acceptors map. -/
def LStrong (props : List (ProposalID U × ProposalStatus U V))
    (am : List (U × ProposalID U)) : Prop :=
  (alKeys am).Nodup ∧ (alKeys props).Nodup ∧
  (∀ u pid, alGet am u = some pid →
      ∃ ps, alGet props pid = some ps ∧ u ∈ ps.acceptors) ∧
  (∀ pid ps, alGet props pid = some ps →
      ps.acceptors.Nodup ∧ (∀ u ∈ ps.acceptors, alGet am u = some pid) ∧
      ps.retain_count = (ps.acceptors.length : Int)) ∧
  sumRetain props = (am.length : Int)

/-- Well-formedness of a Learner: unresolved with coherent bookkeeping, or
resolved with the bookkeeping discarded and `final_acceptors` present. -/
def LWf (l : Learner U V) : Prop :=
  (l.final_value = none ∧ ∃ props am, l.proposals = some props ∧
      l.acceptors = some am ∧ LStrong props am) ∨
  (l.final_value.isSome ∧ l.final_acceptors.isSome ∧ l.proposals = none ∧
      l.acceptors = none)

/-- State of the Learner bookkeeping right before `countVote`: the acceptors
map already records `u ↦ pid`, while the proposals map does not yet count
`u` anywhere, so its retain counts sum to one less than the acceptors map
size. -/
def CVPre (props : List (ProposalID U × ProposalStatus U V))
    (am : List (U × ProposalID U)) (u : U) (pid : ProposalID U) : Prop :=
  (alKeys am).Nodup ∧ (alKeys props).Nodup ∧
  alGet am u = some pid ∧
  (∀ u' pid', u' ≠ u → alGet am u' = some pid' →
      ∃ ps, alGet props pid' = some ps ∧ u' ∈ ps.acceptors) ∧
  (∀ pid' ps, alGet props pid' = some ps →
      ps.acceptors.Nodup ∧ (∀ u' ∈ ps.acceptors, u' ≠ u ∧ alGet am u' = some pid') ∧
      ps.retain_count = (ps.acceptors.length : Int)) ∧
  sumRetain props = (am.length : Int) - 1

/-- The Learner state after `Learner.init 1 2` processes `sampleAccepted`:
one recorded vote, quorum not yet reached. -/
def sampleCountingLearner : Learner Nat Nat :=
  { Learner.init 1 2 with
    proposals := some [(⟨1, 1⟩, ⟨1, 1, [10], 42⟩)]
    acceptors := some [(10, ⟨1, 1⟩)] }

theorem pidLt_irrefl (a : ProposalID U) : ¬ pidLt a a := by
  unfold pidLt
  simp

theorem pidLt_trans {a b c : ProposalID U} (h1 : pidLt a b) (h2 : pidLt b c) :
    pidLt a c := by
  rcases h1 with h1 | ⟨h1, h1u⟩ <;> rcases h2 with h2 | ⟨h2, h2u⟩
  · exact Or.inl (lt_trans h1 h2)
  · exact Or.inl (h2 ▸ h1)
  · exact Or.inl (h1 ▸ h2)
  · exact Or.inr ⟨h1.trans h2, lt_trans h1u h2u⟩

theorem pidLt_asymm {a b : ProposalID U} (h : pidLt a b) : ¬ pidLt b a :=
  fun h' => pidLt_irrefl a (pidLt_trans h h')

theorem pid_trichotomy (a b : ProposalID U) : pidLt a b ∨ a = b ∨ pidLt b a := by
  rcases lt_trichotomy a.number b.number with h | h | h
  · exact Or.inl (Or.inl h)
  · rcases lt_trichotomy a.uid b.uid with hu | hu | hu
    · exact Or.inl (Or.inr ⟨h, hu⟩)
    · refine Or.inr (Or.inl ?_)
      cases a
      cases b
      simp_all
    · exact Or.inr (Or.inr (Or.inr ⟨h.symm, hu⟩))
  · exact Or.inr (Or.inr (Or.inl h))

theorem pidLe_refl (a : ProposalID U) : pidLe a a := Or.inr rfl

theorem pidLe_trans {a b c : ProposalID U} (h1 : pidLe a b) (h2 : pidLe b c) :
    pidLe a c := by
  rcases h1 with h1 | rfl
  · rcases h2 with h2 | rfl
    · exact Or.inl (pidLt_trans h1 h2)
    · exact Or.inl h1
  · exact h2

theorem pidLe_of_not_lt {a b : ProposalID U} (h : ¬ pidLt a b) : pidLe b a := by
  rcases pid_trichotomy a b with h' | rfl | h'
  · exact absurd h' h
  · exact pidLe_refl a
  · exact Or.inl h'

theorem pidLt_of_not_le {a b : ProposalID U} (h : ¬ pidLe a b) : pidLt b a := by
  rcases pid_trichotomy a b with h' | rfl | h'
  · exact absurd (Or.inl h') h
  · exact absurd (pidLe_refl a) h
  · exact h'

theorem leOpt_refl (a : Option (ProposalID U)) : leOpt a a := by
  cases a <;> simp [leOpt, pidLe_refl]

theorem leOpt_trans {a b c : Option (ProposalID U)} (h1 : leOpt a b) (h2 : leOpt b c) :
    leOpt a c := by
  cases a <;> cases b <;> cases c <;> simp_all [leOpt]
  exact pidLe_trans h1 h2

@[simp] theorem observe_network_uid (p : Proposer U V) (pid : ProposalID U) :
    (p.observe_proposal pid).network_uid = p.network_uid := by
  unfold Proposer.observe_proposal
  split <;> rfl

@[simp] theorem observe_quorum_size (p : Proposer U V) (pid : ProposalID U) :
    (p.observe_proposal pid).quorum_size = p.quorum_size := by
  unfold Proposer.observe_proposal
  split <;> rfl

@[simp] theorem observe_leader (p : Proposer U V) (pid : ProposalID U) :
    (p.observe_proposal pid).leader = p.leader := by
  unfold Proposer.observe_proposal
  split <;> rfl

@[simp] theorem observe_proposed_value (p : Proposer U V) (pid : ProposalID U) :
    (p.observe_proposal pid).proposed_value = p.proposed_value := by
  unfold Proposer.observe_proposal
  split <;> rfl

@[simp] theorem observe_proposal_id (p : Proposer U V) (pid : ProposalID U) :
    (p.observe_proposal pid).proposal_id = p.proposal_id := by
  unfold Proposer.observe_proposal
  split <;> rfl

@[simp] theorem observe_highest_accepted (p : Proposer U V) (pid : ProposalID U) :
    (p.observe_proposal pid).highest_accepted_id = p.highest_accepted_id := by
  unfold Proposer.observe_proposal
  split <;> rfl

@[simp] theorem observe_promises (p : Proposer U V) (pid : ProposalID U) :
    (p.observe_proposal pid).promises_received = p.promises_received := by
  unfold Proposer.observe_proposal
  split <;> rfl

@[simp] theorem observe_nacks (p : Proposer U V) (pid : ProposalID U) :
    (p.observe_proposal pid).nacks_received = p.nacks_received := by
  unfold Proposer.observe_proposal
  split <;> rfl

theorem observe_ge (p : Proposer U V) (pid : ProposalID U) :
    pidLe pid (p.observe_proposal pid).highest_proposal_id := by
  unfold Proposer.observe_proposal
  split
  · exact pidLe_refl pid
  · next h => exact pidLe_of_not_lt h

theorem observe_not_lt (p : Proposer U V) (pid : ProposalID U) :
    ¬ pidLt (p.observe_proposal pid).highest_proposal_id pid := by
  unfold Proposer.observe_proposal
  split
  · exact pidLt_irrefl pid
  · next h => exact h

theorem observe_of_not_lt {p : Proposer U V} {pid : ProposalID U}
    (h : ¬ pidLt p.highest_proposal_id pid) : p.observe_proposal pid = p := by
  simp [Proposer.observe_proposal, h]

/-- C1 counterexample: on a Proposer whose `highest_accepted_id` is present,
`prepare()` leaves it present — the source never resets that field. -/
theorem prepare_does_not_clear_highest_accepted :
    ((Proposer.prepare (U := Nat) (V := Nat)
      { network_uid := 1
        quorum_size := 2
        leader := false
        proposed_value := none
        proposal_id := ⟨1, 1⟩
        highest_proposal_id := ⟨1, 1⟩
        highest_accepted_id := some ⟨1, 2⟩
        promises_received := some []
        nacks_received := some []
        current_prepare_msg := none
        current_accept_msg := none }).1).highest_accepted_id ≠ none := by
  decide

/-- C1 (amended): `prepare()` clears `leader`, empties both received sets,
sets `proposal_id := (highest_proposal_id.number + 1, network_uid)`, updates
`highest_proposal_id` to that new id, returns a Prepare carrying
`(network_uid, proposal_id)` — and leaves `highest_accepted_id` unchanged
(the source does not clear it). -/
theorem prepare_spec (p : Proposer U V) :
    (p.prepare).1.leader = false ∧
    (p.prepare).1.promises_received = some [] ∧
    (p.prepare).1.nacks_received = some [] ∧
    (p.prepare).1.proposal_id = ⟨p.highest_proposal_id.number + 1, p.network_uid⟩ ∧
    (p.prepare).1.highest_proposal_id = (p.prepare).1.proposal_id ∧
    (p.prepare).1.highest_accepted_id = p.highest_accepted_id ∧
    (p.prepare).2 = ⟨p.network_uid, (p.prepare).1.proposal_id⟩ := by
  simp [Proposer.prepare]

/-- C9: every message variant a role has no handler for is answered by
raising `InvalidMessage`, with the role state untouched — a standalone
Proposer handles only Promise and Nack, a standalone Acceptor only Prepare
and Accept, a standalone Learner only Accepted, and the composite everything
except Resolution.  No unsupported message is silently dropped. -/
theorem receive_unsupported_raises :
    (∀ (p : Proposer U V) (m : Prepare U),
        p.receive (.prepare m) = .err p .invalidMessage) ∧
    (∀ (p : Proposer U V) (m : Accept U V),
        p.receive (.accept m) = .err p .invalidMessage) ∧
    (∀ (p : Proposer U V) (m : Accepted U V),
        p.receive (.accepted m) = .err p .invalidMessage) ∧
    (∀ (p : Proposer U V) (m : Resolution U V),
        p.receive (.resolution m) = .err p .invalidMessage) ∧
    (∀ (a : Acceptor U V) (m : Promise U V),
        a.receive (.promise m) = .err a .invalidMessage) ∧
    (∀ (a : Acceptor U V) (m : Nack U),
        a.receive (.nack m) = .err a .invalidMessage) ∧
    (∀ (a : Acceptor U V) (m : Accepted U V),
        a.receive (.accepted m) = .err a .invalidMessage) ∧
    (∀ (a : Acceptor U V) (m : Resolution U V),
        a.receive (.resolution m) = .err a .invalidMessage) ∧
    (∀ (l : Learner U V) (m : Prepare U),
        l.receive (.prepare m) = .err l .invalidMessage) ∧
    (∀ (l : Learner U V) (m : Promise U V),
        l.receive (.promise m) = .err l .invalidMessage) ∧
    (∀ (l : Learner U V) (m : Accept U V),
        l.receive (.accept m) = .err l .invalidMessage) ∧
    (∀ (l : Learner U V) (m : Nack U),
        l.receive (.nack m) = .err l .invalidMessage) ∧
    (∀ (l : Learner U V) (m : Resolution U V),
        l.receive (.resolution m) = .err l .invalidMessage) ∧
    (∀ (px : PaxosInstance U V) (m : Resolution U V),
        px.receive (.resolution m) = .err px .invalidMessage) :=
  ⟨fun _ _ => rfl, fun _ _ => rfl, fun _ _ => rfl, fun _ _ => rfl,
   fun _ _ => rfl, fun _ _ => rfl, fun _ _ => rfl, fun _ _ => rfl,
   fun _ _ => rfl, fun _ _ => rfl, fun _ _ => rfl, fun _ _ => rfl,
   fun _ _ => rfl, fun _ _ => rfl⟩

/-- C10: `receive_prepare` never modifies `accepted_id` or `accepted_value`
in either branch, and whenever `receive_prepare` or `receive_accept` answers
with a Nack the whole acceptor state is exactly as before the call. -/
theorem acceptor_frame (a : Acceptor U V) (mp : Prepare U) (ma : Accept U V) :
    (a.receive_prepare mp).1.accepted_id = a.accepted_id ∧
    (a.receive_prepare mp).1.accepted_value = a.accepted_value ∧
    ((a.receive_prepare mp).2.isNack = true → (a.receive_prepare mp).1 = a) ∧
    ((a.receive_accept ma).2.isNack = true → (a.receive_accept ma).1 = a) := by
  unfold Acceptor.receive_prepare Acceptor.receive_accept
  rcases a with ⟨uid, promised, accepted, av⟩
  cases promised with
  | none => simp [PaxosMsg.isNack]
  | some pp =>
      by_cases h1 : pidLe pp mp.proposal_id <;>
        by_cases h2 : pidLe pp ma.proposal_id <;>
          simp [h1, h2, PaxosMsg.isNack]

/-- C10 witness: a concrete acceptor that answers both messages with a Nack
and is left untouched. -/
theorem acceptor_frame_witness :
    (Acceptor.receive_prepare (U := Nat) (V := Nat)
        ⟨1, some ⟨5, 2⟩, none, none⟩ ⟨3, ⟨3, 3⟩⟩).1 = ⟨1, some ⟨5, 2⟩, none, none⟩ ∧
    (Acceptor.receive_accept (U := Nat) (V := Nat)
        ⟨1, some ⟨5, 2⟩, none, none⟩ ⟨3, ⟨3, 3⟩, 9⟩).1 = ⟨1, some ⟨5, 2⟩, none, none⟩ :=
  ⟨(acceptor_frame ⟨1, some ⟨5, 2⟩, none, none⟩ ⟨3, ⟨3, 3⟩⟩ ⟨3, ⟨3, 3⟩, 9⟩).2.2.1
      (by decide),
   (acceptor_frame ⟨1, some ⟨5, 2⟩, none, none⟩ ⟨3, ⟨3, 3⟩⟩ ⟨3, ⟨3, 3⟩, 9⟩).2.2.2
      (by decide)⟩

/-- C8: the composite forwards `receive_prepare`/`receive_accept` to the
Acceptor — same reply, same acceptor state, Learner untouched — with the one
extra effect that the Proposer first observes `msg.proposal_id` (so its
`highest_proposal_id` ends at least at `msg.proposal_id`); and
`receive_promise`, `receive_nack`, `receive_accepted` behave exactly as the
standalone Proposer and Learner on the respective component. -/
theorem paxos_instance_forwarding :
    (∀ (px : PaxosInstance U V) (m : Prepare U),
        (px.receive_prepare m).2 = (px.acc.receive_prepare m).2 ∧
        (px.receive_prepare m).1.acc = (px.acc.receive_prepare m).1 ∧
        (px.receive_prepare m).1.lrn = px.lrn ∧
        (px.receive_prepare m).1.prop = px.prop.observe_proposal m.proposal_id ∧
        pidLe m.proposal_id (px.receive_prepare m).1.prop.highest_proposal_id) ∧
    (∀ (px : PaxosInstance U V) (m : Accept U V),
        (px.receive_accept m).2 = (px.acc.receive_accept m).2 ∧
        (px.receive_accept m).1.acc = (px.acc.receive_accept m).1 ∧
        (px.receive_accept m).1.lrn = px.lrn ∧
        (px.receive_accept m).1.prop = px.prop.observe_proposal m.proposal_id ∧
        pidLe m.proposal_id (px.receive_accept m).1.prop.highest_proposal_id) ∧
    (∀ (px : PaxosInstance U V) (m : Promise U V),
        (∀ p' out, px.prop.receive_promise m = .ok p' out →
            px.receive_promise m = .ok { px with prop := p' } out) ∧
        (∀ p' e, px.prop.receive_promise m = .err p' e →
            px.receive_promise m = .err { px with prop := p' } e)) ∧
    (∀ (px : PaxosInstance U V) (m : Nack U),
        (px.receive_nack m).2 = (px.prop.receive_nack m).2 ∧
        (px.receive_nack m).1.prop = (px.prop.receive_nack m).1 ∧
        (px.receive_nack m).1.acc = px.acc ∧
        (px.receive_nack m).1.lrn = px.lrn) ∧
    (∀ (px : PaxosInstance U V) (m : Accepted U V),
        (∀ l' out, px.lrn.receive_accepted m = .ok l' out →
            px.receive_accepted m = .ok { px with lrn := l' } out) ∧
        (∀ l' e, px.lrn.receive_accepted m = .err l' e →
            px.receive_accepted m = .err { px with lrn := l' } e)) := by
  refine ⟨fun px m => ⟨rfl, rfl, rfl, rfl, ?_⟩,
          fun px m => ⟨rfl, rfl, rfl, rfl, ?_⟩,
          fun px m => ⟨fun p' out h => ?_, fun p' e h => ?_⟩,
          fun px m => ⟨rfl, rfl, rfl, rfl⟩,
          fun px m => ⟨fun l' out h => ?_, fun l' e h => ?_⟩⟩
  · exact observe_ge px.prop m.proposal_id
  · exact observe_ge px.prop m.proposal_id
  · simp [PaxosInstance.receive_promise, h]
  · simp [PaxosInstance.receive_promise, h]
  · simp [PaxosInstance.receive_accepted, h]
  · simp [PaxosInstance.receive_accepted, h]

/-- C8 witness: the forwarding facts at one concrete composite state and
concrete messages, the Promise and Accepted cases instantiated at the actual
result of the component handler. -/
theorem paxos_instance_forwarding_witness :
    ((PaxosInstance.receive_prepare (U := Nat) (V := Nat)
        (PaxosInstance.init 1 2 none none none) ⟨2, ⟨4, 2⟩⟩).1.prop
      = Proposer.observe_proposal (Proposer.init 1 2) ⟨4, 2⟩) ∧
    (PaxosInstance.receive_promise (U := Nat) (V := Nat)
        (PaxosInstance.init 1 2 none none none) ⟨2, 1, ⟨0, 1⟩, none, none⟩
      = .err (PaxosInstance.init 1 2 none none none) .typeError) ∧
    (PaxosInstance.receive_accepted (U := Nat) (V := Nat)
        (PaxosInstance.init 1 2 none none none) ⟨2, ⟨4, 2⟩, 9⟩
      = .ok { PaxosInstance.init 1 2 none none none with
              lrn := { Learner.init 1 2 with
                       proposals := some [(⟨4, 2⟩, ⟨1, 1, [2], 9⟩)]
                       acceptors := some [(2, ⟨4, 2⟩)] } }
          none) := by
  refine ⟨(paxos_instance_forwarding.1 (PaxosInstance.init 1 2 none none none)
            ⟨2, ⟨4, 2⟩⟩).2.2.2.1, ?_, ?_⟩
  · exact (paxos_instance_forwarding.2.2.1 (PaxosInstance.init 1 2 none none none)
      ⟨2, 1, ⟨0, 1⟩, none, none⟩).2 (Proposer.init 1 2) .typeError (by decide)
  · exact (paxos_instance_forwarding.2.2.2.2 (PaxosInstance.init 1 2 none none none)
      ⟨2, ⟨4, 2⟩, 9⟩).1 _ _ (by decide)

/-- C5: `receive_nack` always applies `observe_proposal(msg.promised_proposal_id)`;
with `nacks_received` uninitialized (no `prepare()` yet) or a stale
`msg.proposal_id` nothing else happens and nothing is returned; otherwise
`msg.from_uid` is added to `nacks_received`, and on reaching `quorum_size`
the handler calls `prepare()` and returns its Prepare message. -/
theorem receive_nack_spec (p : Proposer U V) (m : Nack U) :
    ((p.nacks_received = none ∨ m.proposal_id ≠ p.proposal_id) →
        p.receive_nack m = (p.observe_proposal m.promised_proposal_id, none)) ∧
    (∀ ns, p.nacks_received = some ns → m.proposal_id = p.proposal_id →
        (((setAdd ns m.from_uid).length ≠ p.quorum_size →
            p.receive_nack m =
              ({ p.observe_proposal m.promised_proposal_id with
                 nacks_received := some (setAdd ns m.from_uid) }, none)) ∧
         ((setAdd ns m.from_uid).length = p.quorum_size →
            p.receive_nack m =
              (({ p.observe_proposal m.promised_proposal_id with
                  nacks_received := some (setAdd ns m.from_uid) } : Proposer U V).prepare.1,
               some ({ p.observe_proposal m.promised_proposal_id with
                  nacks_received := some (setAdd ns m.from_uid) } : Proposer U V).prepare.2)))) := by
  constructor
  · intro h
    unfold Proposer.receive_nack
    by_cases hid : m.proposal_id = p.proposal_id
    · rcases h with h | h
      · simp [hid, h]
      · exact absurd hid h
    · simp [hid]
  · intro ns hns hid
    constructor
    · intro hq
      unfold Proposer.receive_nack
      simp [hid, hns, hq]
    · intro hq
      unfold Proposer.receive_nack
      simp [hid, hns, hq]

/-- C5 witness: a Nack before any `prepare()` only observes the promised id;
a Nack completing a quorum of one on a prepared Proposer triggers a new
`prepare()` whose Prepare is returned. -/
theorem receive_nack_spec_witness :
    Proposer.receive_nack (U := Nat) (V := Nat) (Proposer.init 1 1)
        ⟨10, 1, ⟨3, 3⟩, ⟨5, 2⟩⟩
      = (Proposer.observe_proposal (Proposer.init 1 1) ⟨5, 2⟩, none) ∧
    Proposer.receive_nack (U := Nat) (V := Nat) ((Proposer.init 1 1).prepare.1)
        ⟨10, 1, ⟨1, 1⟩, ⟨5, 2⟩⟩
      = (({ Proposer.observe_proposal ((Proposer.init 1 1).prepare.1) ⟨5, 2⟩ with
            nacks_received := some (setAdd [] 10) } : Proposer Nat Nat).prepare.1,
         some ({ Proposer.observe_proposal ((Proposer.init 1 1).prepare.1) ⟨5, 2⟩ with
            nacks_received := some (setAdd [] 10) } : Proposer Nat Nat).prepare.2) :=
  ⟨(receive_nack_spec (Proposer.init 1 1) ⟨10, 1, ⟨3, 3⟩, ⟨5, 2⟩⟩).1
      (Or.inl (by decide)),
   ((receive_nack_spec ((Proposer.init 1 1).prepare.1) ⟨10, 1, ⟨1, 1⟩, ⟨5, 2⟩⟩).2 []
      (by decide) (by decide)).2 (by decide)⟩

/-- C2: on a non-leader Proposer, a Promise for the current round from a new
acceptor is recorded; a present `last_accepted_id` greater than
`highest_accepted_id` (absent counting as smallest) is adopted together with
its value when present; and exactly on reaching `quorum_size` promises the
Proposer becomes leader, returning `Accept(network_uid, proposal_id,
proposed_value)` when a value is present and nothing otherwise. -/
theorem receive_promise_spec (p : Proposer U V) (m : Promise U V) (pr : List U)
    (hl : p.leader = false) (hpr : p.promises_received = some pr)
    (hid : m.proposal_id = p.proposal_id) (hmem : m.from_uid ∉ pr) :
    ∃ p' out, p.receive_promise m = .ok p' out ∧
      p'.promises_received = some (setAdd pr m.from_uid) ∧
      (ltOpt p.highest_accepted_id m.last_accepted_id →
          p'.highest_accepted_id = m.last_accepted_id ∧
          (∀ v, m.last_accepted_value = some v → p'.proposed_value = some v) ∧
          (m.last_accepted_value = none → p'.proposed_value = p.proposed_value)) ∧
      (¬ ltOpt p.highest_accepted_id m.last_accepted_id →
          p'.highest_accepted_id = p.highest_accepted_id ∧
          p'.proposed_value = p.proposed_value) ∧
      ((setAdd pr m.from_uid).length = p.quorum_size →
          p'.leader = true ∧
          (∀ v, p'.proposed_value = some v →
              out = some ⟨p.network_uid, p.proposal_id, v⟩) ∧
          (p'.proposed_value = none → out = none)) ∧
      ((setAdd pr m.from_uid).length ≠ p.quorum_size →
          p'.leader = false ∧ out = none) := by
  unfold Proposer.receive_promise
  simp only [observe_leader, observe_proposal_id, observe_promises,
    observe_highest_accepted, observe_quorum_size, observe_proposed_value,
    observe_network_uid, hl, hid, hpr, hmem, and_self, if_true, if_pos rfl,
    if_neg hmem]
  by_cases hlt : ltOpt p.highest_accepted_id m.last_accepted_id <;>
    by_cases hq : (setAdd pr m.from_uid).length = p.quorum_size <;>
      simp only [hlt, hq, if_true, if_false, if_pos, if_neg, not_false_iff]
  · cases hv : m.last_accepted_value with
    | some v =>
        refine ⟨_, _, rfl, ?_⟩
        simp [hv, hlt, hq]
    | none =>
        cases hpv : p.proposed_value with
        | some w =>
            refine ⟨_, _, rfl, ?_⟩
            simp [hv, hlt, hq, hpv]
        | none =>
            refine ⟨_, _, rfl, ?_⟩
            simp [hv, hlt, hq, hpv]
  · cases hv : m.last_accepted_value with
    | some v =>
        refine ⟨_, _, rfl, ?_⟩
        simp [hv, hlt, hq]
    | none =>
        refine ⟨_, _, rfl, ?_⟩
        simp [hv, hlt, hq]
  · cases hpv : p.proposed_value with
    | some w =>
        refine ⟨_, _, rfl, ?_⟩
        simp [hlt, hq, hpv]
    | none =>
        refine ⟨_, _, rfl, ?_⟩
        simp [hlt, hq, hpv]
  · refine ⟨_, _, rfl, ?_⟩
    simp [hlt, hq]

/-- C2 witness: `sampleProposer` (fresh round, quorum one) processes
`samplePromise`, adopts the carried acceptance, reaches quorum and answers
with an Accept. -/
theorem receive_promise_spec_witness :
    ∃ (p' : Proposer Nat Nat) (out : Option (Accept Nat Nat)),
      sampleProposer.receive_promise samplePromise = .ok p' out ∧
      p'.promises_received = some (setAdd [] 10) ∧
      (ltOpt sampleProposer.highest_accepted_id samplePromise.last_accepted_id →
          p'.highest_accepted_id = samplePromise.last_accepted_id ∧
          (∀ v, samplePromise.last_accepted_value = some v →
              p'.proposed_value = some v) ∧
          (samplePromise.last_accepted_value = none →
              p'.proposed_value = sampleProposer.proposed_value)) ∧
      (¬ ltOpt sampleProposer.highest_accepted_id samplePromise.last_accepted_id →
          p'.highest_accepted_id = sampleProposer.highest_accepted_id ∧
          p'.proposed_value = sampleProposer.proposed_value) ∧
      ((setAdd [] 10).length = sampleProposer.quorum_size →
          p'.leader = true ∧
          (∀ v, p'.proposed_value = some v →
              out = some ⟨sampleProposer.network_uid, sampleProposer.proposal_id, v⟩) ∧
          (p'.proposed_value = none → out = none)) ∧
      ((setAdd [] 10).length ≠ sampleProposer.quorum_size →
          p'.leader = false ∧ out = none) :=
  receive_promise_spec sampleProposer samplePromise []
    (by decide) (by decide) (by decide) (by decide)

theorem acceptor_step_mono (a : Acceptor U V) (op : AcceptorOp U V) (h : AccInv a) :
    AccInv (a.step op) ∧ leOpt a.promised_id (a.step op).promised_id ∧
      leOpt a.accepted_id (a.step op).accepted_id := by
  obtain ⟨h1, h2⟩ := h
  rcases a with ⟨uid, promised, accepted, av⟩
  cases op with
  | prep m =>
      simp only [Acceptor.step, Acceptor.receive_prepare] at *
      cases promised with
      | none =>
          cases accepted with
          | none => exact ⟨⟨trivial, h2⟩, trivial, trivial⟩
          | some x => simp [leOpt] at h1
      | some pp =>
          by_cases hle : pidLe pp m.proposal_id
          · simp only [if_pos hle]
            refine ⟨⟨?_, h2⟩, hle, leOpt_refl _⟩
            cases accepted with
            | none => trivial
            | some x => exact pidLe_trans h1 hle
          · simp only [if_neg hle]
            exact ⟨⟨h1, h2⟩, leOpt_refl _, leOpt_refl _⟩
  | acc m =>
      simp only [Acceptor.step, Acceptor.receive_accept] at *
      cases promised with
      | none =>
          cases accepted with
          | none => exact ⟨⟨pidLe_refl _, by simp⟩, trivial, trivial⟩
          | some x => simp [leOpt] at h1
      | some pp =>
          by_cases hle : pidLe pp m.proposal_id
          · simp only [if_pos hle]
            refine ⟨⟨pidLe_refl _, by simp⟩, hle, ?_⟩
            cases accepted with
            | none => trivial
            | some x => exact pidLe_trans h1 hle
          · simp only [if_neg hle]
            exact ⟨⟨h1, h2⟩, leOpt_refl _, leOpt_refl _⟩

theorem acceptor_run_mono (a : Acceptor U V) (ops : List (AcceptorOp U V))
    (h : AccInv a) :
    AccInv (a.run ops) ∧ leOpt a.promised_id (a.run ops).promised_id ∧
      leOpt a.accepted_id (a.run ops).accepted_id := by
  induction ops generalizing a with
  | nil => exact ⟨h, leOpt_refl _, leOpt_refl _⟩
  | cons op ops ih =>
      have hs := acceptor_step_mono a op h
      have hr := ih (a.step op) hs.1
      exact ⟨hr.1, leOpt_trans hs.2.1 hr.2.1, leOpt_trans hs.2.2 hr.2.2⟩

/-- C3: starting from an Acceptor whose durable state is well formed (fresh,
or rehydrated from a persisted triple), across any sequence of
`receive_prepare`/`receive_accept` calls `promised_id` and `accepted_id` are
monotone non-decreasing (absent below any present id), the accepted id never
exceeds the promised id, and the accepted value is present exactly when the
accepted id is. -/
theorem acceptor_monotone_inv (a : Acceptor U V) (ops : List (AcceptorOp U V))
    (h : AccInv a) :
    (∀ pre suf, ops = pre ++ suf →
        leOpt (a.run pre).promised_id (a.run ops).promised_id ∧
        leOpt (a.run pre).accepted_id (a.run ops).accepted_id) ∧
    leOpt (a.run ops).accepted_id (a.run ops).promised_id ∧
    ((a.run ops).accepted_value.isSome ↔ (a.run ops).accepted_id.isSome) := by
  have hrun := acceptor_run_mono a ops h
  obtain ⟨hinv1, hinv2⟩ := hrun.1
  refine ⟨?_, hinv1, hinv2⟩
  intro pre suf hsplit
  have hpre := acceptor_run_mono a pre h
  have heq : a.run ops = (a.run pre).run suf := by
    rw [hsplit]
    simp [Acceptor.run, List.foldl_append]
  rw [heq]
  have h2 := acceptor_run_mono (a.run pre) suf hpre.1
  exact ⟨h2.2.1, h2.2.2⟩

/-- C3 witness: the fresh acceptor through a Prepare then an Accept — the
promise made after the first input is below the final promised id, and the
final state satisfies the durable-state invariant. -/
theorem acceptor_monotone_inv_witness :
    (leOpt (sampleAcceptor.run [.prep ⟨2, ⟨1, 2⟩⟩]).promised_id
        (sampleAcceptor.run sampleOps).promised_id ∧
      leOpt (sampleAcceptor.run [.prep ⟨2, ⟨1, 2⟩⟩]).accepted_id
        (sampleAcceptor.run sampleOps).accepted_id) ∧
    leOpt (sampleAcceptor.run sampleOps).accepted_id
      (sampleAcceptor.run sampleOps).promised_id :=
  ⟨(acceptor_monotone_inv sampleAcceptor sampleOps ⟨trivial, Iff.rfl⟩).1
      [.prep ⟨2, ⟨1, 2⟩⟩] [.acc ⟨2, ⟨1, 2⟩, 9⟩] rfl,
   (acceptor_monotone_inv sampleAcceptor sampleOps ⟨trivial, Iff.rfl⟩).2.1⟩

theorem mem_setAdd_self (s : List U) (x : U) : x ∈ setAdd s x := by
  unfold setAdd
  split
  · assumption
  · exact List.mem_cons_self x s

theorem mem_setAdd_iff (s : List U) (x y : U) : y ∈ setAdd s x ↔ y = x ∨ y ∈ s := by
  unfold setAdd
  split
  · next hx =>
      constructor
      · exact fun h => Or.inr h
      · rintro (rfl | h)
        · exact hx
        · exact h
  · exact List.mem_cons

theorem setAdd_of_mem {s : List U} {x : U} (h : x ∈ s) : setAdd s x = s := by
  unfold setAdd
  exact if_pos h

theorem length_setAdd_of_not_mem {s : List U} {x : U} (h : x ∉ s) :
    (setAdd s x).length = s.length + 1 := by
  unfold setAdd
  rw [if_neg h]
  rfl

theorem nodup_setAdd {s : List U} (x : U) (h : s.Nodup) : (setAdd s x).Nodup := by
  unfold setAdd
  split
  · exact h
  · next hx => exact List.nodup_cons.mpr ⟨hx, h⟩


theorem observe_idem (p : Proposer U V) (pid : ProposalID U) :
    (p.observe_proposal pid).observe_proposal pid = p.observe_proposal pid :=
  observe_of_not_lt (observe_not_lt p pid)

theorem receive_promise_noop (q : Proposer U V) (m : Promise U V)
    (hh : ¬ pidLt q.highest_proposal_id m.proposal_id)
    (hcase : q.leader = true ∨ m.proposal_id ≠ q.proposal_id ∨
      (∃ s, q.promises_received = some s ∧ m.from_uid ∈ s)) :
    q.receive_promise m = .ok q none := by
  unfold Proposer.receive_promise
  rw [observe_of_not_lt hh]
  rcases hcase with hl | hne | ⟨s, hs, hm⟩
  · rw [if_neg]
    simp [hl]
  · rw [if_neg]
    tauto
  · by_cases hg : q.leader = false ∧ m.proposal_id = q.proposal_id
    · rw [if_pos hg, hs]
      dsimp only
      rw [if_pos hm]
    · rw [if_neg hg]

theorem receive_promise_idem (p p₁ : Proposer U V) (m : Promise U V)
    (o₁ : Option (Accept U V)) (h : p.receive_promise m = .ok p₁ o₁) :
    p₁.receive_promise m = .ok p₁ none := by
  have hnl := observe_not_lt p m.proposal_id
  unfold Proposer.receive_promise at h
  by_cases hg : (p.observe_proposal m.proposal_id).leader = false ∧
      m.proposal_id = (p.observe_proposal m.proposal_id).proposal_id
  · rw [if_pos hg] at h
    cases hpr : (p.observe_proposal m.proposal_id).promises_received with
    | none =>
        rw [hpr] at h
        exact absurd h (by simp)
    | some pr =>
        rw [hpr] at h
        dsimp only at h
        by_cases hmem : m.from_uid ∈ pr
        · rw [if_pos hmem] at h
          injection h with h1 h2
          subst h1
          exact receive_promise_noop _ m hnl (Or.inr (Or.inr ⟨pr, hpr, hmem⟩))
        · rw [if_neg hmem] at h
          by_cases hlt : ltOpt (p.observe_proposal m.proposal_id).highest_accepted_id
              m.last_accepted_id
          · simp only [hlt, if_true] at h
            by_cases hq : (setAdd pr m.from_uid).length =
                (p.observe_proposal m.proposal_id).quorum_size
            · rw [if_pos hq] at h
              cases hv : m.last_accepted_value with
              | some v =>
                  rw [hv] at h
                  dsimp only at h
                  injection h with h1 h2
                  subst h1
                  exact receive_promise_noop _ m hnl (Or.inl rfl)
              | none =>
                  rw [hv] at h
                  dsimp only at h
                  cases hpv : (p.observe_proposal m.proposal_id).proposed_value with
                  | some w =>
                      rw [hpv] at h
                      dsimp only at h
                      injection h with h1 h2
                      subst h1
                      exact receive_promise_noop _ m hnl (Or.inl rfl)
                  | none =>
                      rw [hpv] at h
                      dsimp only at h
                      injection h with h1 h2
                      subst h1
                      exact receive_promise_noop _ m hnl (Or.inl rfl)
            · rw [if_neg hq] at h
              injection h with h1 h2
              subst h1
              exact receive_promise_noop _ m hnl
                (Or.inr (Or.inr ⟨setAdd pr m.from_uid, rfl, mem_setAdd_self pr m.from_uid⟩))
          · simp only [hlt, if_false] at h
            by_cases hq : (setAdd pr m.from_uid).length =
                (p.observe_proposal m.proposal_id).quorum_size
            · rw [if_pos hq] at h
              cases hpv : (p.observe_proposal m.proposal_id).proposed_value with
              | some w =>
                  rw [hpv] at h
                  dsimp only at h
                  injection h with h1 h2
                  subst h1
                  exact receive_promise_noop _ m hnl (Or.inl rfl)
              | none =>
                  rw [hpv] at h
                  dsimp only at h
                  injection h with h1 h2
                  subst h1
                  exact receive_promise_noop _ m hnl (Or.inl rfl)
            · rw [if_neg hq] at h
              injection h with h1 h2
              subst h1
              exact receive_promise_noop _ m hnl
                (Or.inr (Or.inr ⟨setAdd pr m.from_uid, rfl, mem_setAdd_self pr m.from_uid⟩))
  · rw [if_neg hg] at h
    injection h with h1 h2
    subst h1
    exact receive_promise_noop _ m hnl (by
      rcases not_and_or.mp hg with h | h
      · exact Or.inl (by simpa using h)
      · exact Or.inr (Or.inl fun hc => h hc))

theorem alGet_alSet_self {α β : Type} [DecidableEq α] (l : List (α × β)) (k : α) (v : β) :
    alGet (alSet l k v) k = some v := by
  induction l with
  | nil => simp [alSet, alGet]
  | cons kv t ih =>
      obtain ⟨k', v'⟩ := kv
      by_cases hk : k = k'
      · simp [alSet, alGet, hk]
      · simp [alSet, alGet, hk, ih]

/-- After resolution, a matching Accepted extends `final_acceptors` and is
answered with the Resolution of the final value. -/
theorem receive_accepted_resolved_match (l' : Learner U V) (m : Accepted U V)
    (v : V) (fa : List U) (hfv : l'.final_value = some v)
    (hfa : l'.final_acceptors = some fa)
    (hc : geOpt m.proposal_id l'.final_proposal_id ∧ m.proposal_value = v) :
    l'.receive_accepted m =
      .ok { l' with final_acceptors := some (setAdd fa m.from_uid) }
        (some ⟨l'.network_uid, v⟩) := by
  unfold Learner.receive_accepted
  rw [hfv]
  dsimp only
  rw [if_pos hc, hfa]

/-- After resolution, a non-matching Accepted changes nothing but is still
answered with the Resolution of the final value. -/
theorem receive_accepted_resolved_nomatch (l' : Learner U V) (m : Accepted U V)
    (v : V) (hfv : l'.final_value = some v)
    (hc : ¬ (geOpt m.proposal_id l'.final_proposal_id ∧ m.proposal_value = v)) :
    l'.receive_accepted m = .ok l' (some ⟨l'.network_uid, v⟩) := by
  unfold Learner.receive_accepted
  rw [hfv]
  dsimp only
  rw [if_neg hc]

/-- A stale Accepted (not newer than the acceptor's recorded vote) is ignored. -/
theorem receive_accepted_stale (l' : Learner U V) (m : Accepted U V)
    (accMap : List (U × ProposalID U)) (hfv : l'.final_value = none)
    (hacc : l'.acceptors = some accMap)
    (hst : pidLeOpt m.proposal_id (alGet accMap m.from_uid)) :
    l'.receive_accepted m = .ok l' none := by
  unfold Learner.receive_accepted
  rw [hfv]
  dsimp only
  rw [hacc]
  dsimp only
  rw [if_pos hst]

theorem countVote_idem (l₀ : Learner U V)
    (props : List (ProposalID U × ProposalStatus U V)) (m : Accepted U V)
    (l₁ : Learner U V) (o₁ : Option (Resolution U V)) (am : List (U × ProposalID U))
    (uidv : U) (hfv₀ : l₀.final_value = none) (hacc₀ : l₀.acceptors = some am)
    (ham : alGet am m.from_uid = some m.proposal_id) (huid : l₀.network_uid = uidv)
    (h : Learner.countVote l₀ props m = .ok l₁ o₁) :
    (l₁.receive_accepted m = .ok l₁ none ∧ l₁.final_value = none) ∨
    (∃ v, l₁.final_value = some v ∧
        l₁.receive_accepted m = .ok l₁ (some ⟨uidv, v⟩)) := by
  subst huid
  unfold Learner.countVote at h
  cases hget : alGet props m.proposal_id with
  | some ps0 =>
      rw [hget] at h
      dsimp only [Option.getD_some, Option.isSome_some, if_true] at h
      by_cases hval : m.proposal_value = ps0.value
      · rw [if_pos hval] at h
        try dsimp only at h
        by_cases hq : ps0.accept_count + 1 = (l₀.quorum_size : Int)
        · rw [if_pos hq] at h
          injection h with h1 h2
          subst h1
          refine Or.inr ⟨m.proposal_value, rfl, ?_⟩
          have hr := receive_accepted_resolved_match
            ({ l₀ with proposals := none
                       acceptors := none
                       final_proposal_id := some m.proposal_id
                       final_value := some m.proposal_value
                       final_acceptors := some (setAdd ps0.acceptors m.from_uid) })
            m m.proposal_value (setAdd ps0.acceptors m.from_uid) rfl rfl
            ⟨pidLe_refl m.proposal_id, rfl⟩
          rw [setAdd_of_mem (mem_setAdd_self ps0.acceptors m.from_uid)] at hr
          exact hr
        · rw [if_neg hq] at h
          injection h with h1 h2
          subst h1
          refine Or.inl ⟨?_, hfv₀⟩
          refine receive_accepted_stale _ m am hfv₀ hacc₀ ?_
          rw [ham]
          exact pidLe_refl m.proposal_id
      · rw [if_neg hval] at h
        exact absurd h (by simp)
  | none =>
      rw [hget] at h
      dsimp only [Option.getD_none, Option.isSome_none, if_false] at h
      rw [if_pos (rfl : m.proposal_value = m.proposal_value)] at h
      try dsimp only at h
      by_cases hq : (0 : Int) + 1 = (l₀.quorum_size : Int)
      · rw [if_pos hq] at h
        injection h with h1 h2
        subst h1
        refine Or.inr ⟨m.proposal_value, rfl, ?_⟩
        have hr := receive_accepted_resolved_match
          ({ l₀ with proposals := none
                     acceptors := none
                     final_proposal_id := some m.proposal_id
                     final_value := some m.proposal_value
                     final_acceptors := some (setAdd [] m.from_uid) })
          m m.proposal_value (setAdd [] m.from_uid) rfl rfl
          ⟨pidLe_refl m.proposal_id, rfl⟩
        rw [setAdd_of_mem (mem_setAdd_self [] m.from_uid)] at hr
        exact hr
      · rw [if_neg hq] at h
        injection h with h1 h2
        subst h1
        refine Or.inl ⟨?_, hfv₀⟩
        refine receive_accepted_stale _ m am hfv₀ hacc₀ ?_
        rw [ham]
        exact pidLe_refl m.proposal_id

theorem receive_accepted_idem (l l₁ : Learner U V) (m : Accepted U V)
    (o₁ : Option (Resolution U V)) (h : l.receive_accepted m = .ok l₁ o₁) :
    (l₁.receive_accepted m = .ok l₁ none ∧ l₁.final_value = none) ∨
    (∃ v, l₁.final_value = some v ∧
        l₁.receive_accepted m = .ok l₁ (some ⟨l.network_uid, v⟩)) := by
  unfold Learner.receive_accepted at h
  cases hfv : l.final_value with
  | some fv =>
      rw [hfv] at h
      dsimp only at h
      by_cases hc : geOpt m.proposal_id l.final_proposal_id ∧ m.proposal_value = fv
      · rw [if_pos hc] at h
        cases hfa : l.final_acceptors with
        | none =>
            rw [hfa] at h
            exact absurd h (by simp)
        | some fa =>
            rw [hfa] at h
            injection h with h1 h2
            subst h1
            refine Or.inr ⟨fv, rfl, ?_⟩
            have hr := receive_accepted_resolved_match
              ({ l with final_value := some fv
                        final_acceptors := some (setAdd fa m.from_uid) }) m fv
              (setAdd fa m.from_uid) rfl rfl ⟨hc.1, hc.2⟩
            rw [setAdd_of_mem (mem_setAdd_self fa m.from_uid)] at hr
            exact hr
      · rw [if_neg hc] at h
        injection h with h1 h2
        subst h1
        exact Or.inr ⟨fv, hfv, receive_accepted_resolved_nomatch l m fv hfv hc⟩
  | none =>
      rw [hfv] at h
      dsimp only at h
      cases hacc : l.acceptors with
      | none =>
          rw [hacc] at h
          exact absurd h (by simp)
      | some accMap =>
          rw [hacc] at h
          dsimp only at h
          by_cases hst : pidLeOpt m.proposal_id (alGet accMap m.from_uid)
          · rw [if_pos hst] at h
            injection h with h1 h2
            subst h1
            exact Or.inl ⟨receive_accepted_stale l m accMap hfv hacc hst, hfv⟩
          · rw [if_neg hst] at h
            try dsimp only at h
            cases hprops : l.proposals with
            | none =>
                rw [hprops] at h
                exact absurd h (by simp)
            | some props =>
                rw [hprops] at h
                dsimp only at h
                cases hlast : alGet accMap m.from_uid with
                | none =>
                    rw [hlast] at h
                    dsimp only at h
                    refine countVote_idem _ _ m l₁ o₁ _ l.network_uid ?_ ?_
                      (alGet_alSet_self accMap m.from_uid m.proposal_id) ?_ h <;> rfl
                | some lp =>
                    rw [hlast] at h
                    dsimp only at h
                    cases hplp : alGet props lp with
                    | none =>
                        rw [hplp] at h
                        exact absurd h (by simp)
                    | some ps =>
                        rw [hplp] at h
                        dsimp only at h
                        by_cases hmem2 : m.from_uid ∈ ps.acceptors
                        · rw [if_pos hmem2] at h
                          refine countVote_idem _ _ m l₁ o₁ _ l.network_uid ?_ ?_
                            (alGet_alSet_self accMap m.from_uid m.proposal_id) ?_ h <;> rfl
                        · rw [if_neg hmem2] at h
                          exact absurd h (by simp)

/-- C6: delivering the same Promise or Accepted twice in a row gives the same
final state and the same (or no) outbound message as delivering it once: the
second delivery of a Promise leaves the Proposer (in particular
`promises_received`) unchanged and returns nothing, and the second delivery
of an Accepted is either filtered as stale (nothing returned, state
unchanged) or, post-resolution, returns the same Resolution without changing
the state. -/
theorem deliver_twice_idempotent :
    (∀ (p p₁ : Proposer U V) (m : Promise U V) (o₁ : Option (Accept U V)),
        p.receive_promise m = .ok p₁ o₁ →
          p₁.receive_promise m = .ok p₁ none) ∧
    (∀ (l l₁ : Learner U V) (m : Accepted U V) (o₁ : Option (Resolution U V)),
        l.receive_accepted m = .ok l₁ o₁ →
          (l₁.receive_accepted m = .ok l₁ none ∧ l₁.final_value = none) ∨
          (∃ v, l₁.final_value = some v ∧
              l₁.receive_accepted m = .ok l₁ (some ⟨l.network_uid, v⟩))) :=
  ⟨receive_promise_idem, receive_accepted_idem⟩

/-- C6 witness: the concrete Promise that made `sampleProposer` leader is
ignored on redelivery, and the Accepted that resolved a quorum-one Learner is
answered again with the same Resolution, state unchanged. -/
theorem deliver_twice_idempotent_witness :
    Proposer.receive_promise samplePromisedProposer samplePromise
      = .ok samplePromisedProposer none ∧
    ((Learner.receive_accepted sampleResolvedLearner sampleAccepted
        = .ok sampleResolvedLearner none ∧
      sampleResolvedLearner.final_value = none) ∨
     (∃ v, sampleResolvedLearner.final_value = some v ∧
        Learner.receive_accepted sampleResolvedLearner sampleAccepted
          = .ok sampleResolvedLearner
              (some ⟨(Learner.init 1 1 : Learner Nat Nat).network_uid, v⟩))) :=
  ⟨deliver_twice_idempotent.1 sampleProposer samplePromisedProposer samplePromise
      (some ⟨1, ⟨1, 1⟩, 42⟩) (by decide),
   deliver_twice_idempotent.2 (Learner.init 1 1) sampleResolvedLearner sampleAccepted
      (some ⟨1, 42⟩) (by decide)⟩

theorem alGet_eq_none_iff {α β : Type} [DecidableEq α] (l : List (α × β)) (k : α) :
    alGet l k = none ↔ k ∉ alKeys l := by
  induction l with
  | nil => simp [alGet, alKeys]
  | cons kv t ih =>
      obtain ⟨k', v'⟩ := kv
      by_cases hk : k = k' <;> simp [alGet, alKeys, hk, ih]

theorem alGet_isSome_of_mem_keys {α β : Type} [DecidableEq α] {l : List (α × β)}
    {k : α} (h : k ∈ alKeys l) : (alGet l k).isSome := by
  cases hg : alGet l k with
  | none => exact absurd h ((alGet_eq_none_iff l k).mp hg)
  | some v => rfl

theorem mem_keys_of_alGet {α β : Type} [DecidableEq α] {l : List (α × β)}
    {k : α} {v : β} (h : alGet l k = some v) : k ∈ alKeys l := by
  by_contra hk
  rw [(alGet_eq_none_iff l k).mpr hk] at h
  cases h

theorem alGet_alSet_ne {α β : Type} [DecidableEq α] (l : List (α × β)) {k k' : α}
    (v : β) (h : k' ≠ k) : alGet (alSet l k v) k' = alGet l k' := by
  induction l with
  | nil => simp [alSet, alGet, h]
  | cons kv t ih =>
      obtain ⟨k₀, v₀⟩ := kv
      by_cases hk : k = k₀
      · subst hk
        simp [alSet, alGet, h, ih]
      · by_cases hk' : k' = k₀ <;> simp [alSet, alGet, hk, hk', ih]

theorem alKeys_cons {α β : Type} (kv : α × β) (t : List (α × β)) :
    alKeys (kv :: t) = kv.1 :: alKeys t := rfl

theorem alKeys_alSet_of_mem {α β : Type} [DecidableEq α] {l : List (α × β)} {k : α}
    (v : β) (h : k ∈ alKeys l) : alKeys (alSet l k v) = alKeys l := by
  induction l with
  | nil => cases h
  | cons kv t ih =>
      obtain ⟨k₀, v₀⟩ := kv
      by_cases hk : k = k₀
      · subst hk
        simp [alSet, alKeys_cons]
      · have ht : k ∈ alKeys t := by
          have hc : k ∈ k₀ :: alKeys t := h
          rcases List.mem_cons.mp hc with he | ht
          · exact absurd he hk
          · exact ht
        simp only [alSet, if_neg hk, alKeys_cons]
        rw [ih ht]

theorem alKeys_alSet_of_not_mem {α β : Type} [DecidableEq α] {l : List (α × β)}
    {k : α} (v : β) (h : k ∉ alKeys l) : alKeys (alSet l k v) = alKeys l ++ [k] := by
  induction l with
  | nil => simp [alSet, alKeys]
  | cons kv t ih =>
      obtain ⟨k₀, v₀⟩ := kv
      have hk : k ≠ k₀ := fun he =>
        h (show k ∈ k₀ :: alKeys t from List.mem_cons.mpr (Or.inl he))
      have ht : k ∉ alKeys t := fun he =>
        h (show k ∈ k₀ :: alKeys t from List.mem_cons.mpr (Or.inr he))
      simp only [alSet, if_neg hk, alKeys_cons]
      rw [ih ht]
      rfl

theorem nodup_alKeys_alSet {α β : Type} [DecidableEq α] {l : List (α × β)} {k : α}
    (v : β) (h : (alKeys l).Nodup) : (alKeys (alSet l k v)).Nodup := by
  by_cases hm : k ∈ alKeys l
  · rw [alKeys_alSet_of_mem v hm]
    exact h
  · rw [alKeys_alSet_of_not_mem v hm]
    simp [List.nodup_append, h, hm]

theorem length_alSet_of_mem {α β : Type} [DecidableEq α] {l : List (α × β)} {k : α}
    (v : β) (h : k ∈ alKeys l) : (alSet l k v).length = l.length := by
  have := alKeys_alSet_of_mem v h
  have h1 : (alKeys (alSet l k v)).length = (alKeys l).length := by rw [this]
  simpa [alKeys] using h1

theorem length_alSet_of_not_mem {α β : Type} [DecidableEq α] {l : List (α × β)}
    {k : α} (v : β) (h : k ∉ alKeys l) : (alSet l k v).length = l.length + 1 := by
  have := alKeys_alSet_of_not_mem v h
  have h1 : (alKeys (alSet l k v)).length = (alKeys l).length + 1 := by
    rw [this]
    simp
  simpa [alKeys] using h1

theorem alErase_sublist {α β : Type} [DecidableEq α] (l : List (α × β)) (k : α) :
    (alErase l k).Sublist l := by
  induction l with
  | nil => simp [alErase]
  | cons kv t ih =>
      obtain ⟨k₀, v₀⟩ := kv
      by_cases hk : k = k₀
      · simp [alErase, hk]
      · simpa [alErase, hk] using ih.cons₂ (k₀, v₀)

theorem alGet_alErase_ne {α β : Type} [DecidableEq α] (l : List (α × β)) {k k' : α}
    (h : k' ≠ k) : alGet (alErase l k) k' = alGet l k' := by
  induction l with
  | nil => simp [alErase]
  | cons kv t ih =>
      obtain ⟨k₀, v₀⟩ := kv
      by_cases hk : k = k₀
      · subst hk
        simp [alErase, alGet, h]
      · by_cases hk' : k' = k₀ <;> simp [alErase, alGet, hk, hk', ih]

theorem alGet_alErase_self {α β : Type} [DecidableEq α] {l : List (α × β)} {k : α}
    (h : (alKeys l).Nodup) : alGet (alErase l k) k = none := by
  induction l with
  | nil => simp [alErase, alGet]
  | cons kv t ih =>
      obtain ⟨k₀, v₀⟩ := kv
      have h' : (alKeys t).Nodup := by
        simp [alKeys] at h
        exact h.2
      by_cases hk : k = k₀
      · subst hk
        rw [alGet_eq_none_iff]
        simp [alErase, alKeys] at h ⊢
        exact h.1
      · simp [alErase, alGet, hk, ih h']

theorem alGet_mem {α β : Type} [DecidableEq α] {l : List (α × β)} {k : α} {v : β}
    (h : alGet l k = some v) : (k, v) ∈ l := by
  induction l with
  | nil => cases h
  | cons kv t ih =>
      obtain ⟨k₀, v₀⟩ := kv
      by_cases hk : k = k₀
      · rw [alGet, if_pos hk] at h
        injection h with h'
        subst hk
        subst h'
        exact List.mem_cons_self _ _
      · rw [alGet, if_neg hk] at h
        exact List.mem_cons_of_mem _ (ih h)

theorem alGet_of_mem {α β : Type} [DecidableEq α] {l : List (α × β)} {k : α} {v : β}
    (hnd : (alKeys l).Nodup) (h : (k, v) ∈ l) : alGet l k = some v := by
  induction l with
  | nil => cases h
  | cons kv t ih =>
      obtain ⟨k₀, v₀⟩ := kv
      have hnd' : k₀ ∉ alKeys t ∧ (alKeys t).Nodup := by
        rw [alKeys_cons] at hnd
        exact List.nodup_cons.mp hnd
      rcases List.mem_cons.mp h with he | ht
      · injection he with h1 h2
        subst h1
        subst h2
        simp [alGet]
      · have hk : k ≠ k₀ := by
          rintro rfl
          exact hnd'.1 (List.mem_map_of_mem Prod.fst ht)
        rw [alGet, if_neg hk]
        exact ih hnd'.2 ht

theorem sumRetain_alSet_of_get (props : List (ProposalID U × ProposalStatus U V))
    {k : ProposalID U} {ps : ProposalStatus U V} (v : ProposalStatus U V)
    (hnd : (alKeys props).Nodup) (h : alGet props k = some ps) :
    sumRetain (alSet props k v) =
      sumRetain props - ps.retain_count + v.retain_count := by
  induction props with
  | nil => cases h
  | cons kv t ih =>
      obtain ⟨k₀, v₀⟩ := kv
      simp [alKeys] at hnd
      by_cases hk : k = k₀
      · rw [alGet, if_pos hk] at h
        injection h with h'
        subst h'
        rw [alSet, if_pos hk]
        simp [sumRetain]
        ring
      · rw [alGet, if_neg hk] at h
        rw [alSet, if_neg hk]
        simp only [sumRetain, List.map_cons, List.sum_cons] at *
        rw [ih hnd.2 h]
        ring

theorem sumRetain_alSet_of_not_mem (props : List (ProposalID U × ProposalStatus U V))
    {k : ProposalID U} (v : ProposalStatus U V) (h : k ∉ alKeys props) :
    sumRetain (alSet props k v) = sumRetain props + v.retain_count := by
  induction props with
  | nil => simp [alSet, sumRetain]
  | cons kv t ih =>
      obtain ⟨k₀, v₀⟩ := kv
      have hk : k ≠ k₀ := fun he =>
        h (show k ∈ k₀ :: alKeys t from List.mem_cons.mpr (Or.inl he))
      have ht : k ∉ alKeys t := fun he =>
        h (show k ∈ k₀ :: alKeys t from List.mem_cons.mpr (Or.inr he))
      rw [alSet, if_neg hk]
      simp only [sumRetain, List.map_cons, List.sum_cons] at *
      rw [ih ht]
      ring

theorem sumRetain_alErase (props : List (ProposalID U × ProposalStatus U V))
    {k : ProposalID U} {ps : ProposalStatus U V}
    (hnd : (alKeys props).Nodup) (h : alGet props k = some ps) :
    sumRetain (alErase props k) = sumRetain props - ps.retain_count := by
  induction props with
  | nil => cases h
  | cons kv t ih =>
      obtain ⟨k₀, v₀⟩ := kv
      simp [alKeys] at hnd
      by_cases hk : k = k₀
      · rw [alGet, if_pos hk] at h
        injection h with h'
        subst h'
        rw [alErase, if_pos hk]
        simp [sumRetain]
      · rw [alGet, if_neg hk] at h
        rw [alErase, if_neg hk]
        simp only [sumRetain, List.map_cons, List.sum_cons] at *
        rw [ih hnd.2 h]
        ring

theorem alSet_alSet {α β : Type} [DecidableEq α] (l : List (α × β)) (k : α)
    (v w : β) : alSet (alSet l k v) k w = alSet l k w := by
  induction l with
  | nil => simp [alSet]
  | cons kv t ih =>
      obtain ⟨k₀, v₀⟩ := kv
      by_cases hk : k = k₀ <;> simp [alSet, hk, ih]

theorem listRemove_sublist (s : List U) (x : U) : (listRemove s x).Sublist s := by
  induction s with
  | nil => simp [listRemove]
  | cons y t ih =>
      by_cases hx : x = y
      · simp [listRemove, hx]
      · simpa [listRemove, hx] using ih.cons₂ y

theorem nodup_listRemove {s : List U} (x : U) (h : s.Nodup) :
    (listRemove s x).Nodup := (listRemove_sublist s x).nodup h

theorem length_listRemove {s : List U} {x : U} (h : x ∈ s) :
    (listRemove s x).length + 1 = s.length := by
  induction s with
  | nil => cases h
  | cons y t ih =>
      by_cases hx : x = y
      · simp [listRemove, hx]
      · rcases List.mem_cons.mp h with he | ht
        · exact absurd he hx
        · simp only [listRemove, if_neg hx, List.length_cons]
          rw [← ih ht]

theorem mem_listRemove {s : List U} {x y : U} (hnd : s.Nodup) :
    y ∈ listRemove s x ↔ y ∈ s ∧ y ≠ x := by
  induction s with
  | nil => simp [listRemove]
  | cons z t ih =>
      simp only [List.nodup_cons] at hnd
      by_cases hx : x = z
      · subst hx
        simp only [listRemove, if_pos rfl]
        constructor
        · intro hy
          exact ⟨List.mem_cons_of_mem _ hy, by rintro rfl; exact hnd.1 hy⟩
        · rintro ⟨hy, hne⟩
          rcases List.mem_cons.mp hy with rfl | ht
          · exact absurd rfl hne
          · exact ht
      · simp only [listRemove, if_neg hx, List.mem_cons, ih hnd.2]
        constructor
        · rintro (rfl | ⟨ht, hne⟩)
          · exact ⟨Or.inl rfl, fun he => hx he.symm⟩
          · exact ⟨Or.inr ht, hne⟩
        · rintro ⟨rfl | ht, hne⟩
          · exact Or.inl rfl
          · exact Or.inr ⟨ht, hne⟩

theorem countVote_shape (l₀ : Learner U V)
    (props : List (ProposalID U × ProposalStatus U V)) (m : Accepted U V)
    (l' : Learner U V) (out : Option (Resolution U V))
    (h : Learner.countVote l₀ props m = .ok l' out) :
    l'.network_uid = l₀.network_uid ∧
    ((l'.final_value = l₀.final_value ∧ out = none ∧
        l'.final_acceptors = l₀.final_acceptors) ∨
     (l'.final_value = some m.proposal_value ∧
        out = some ⟨l₀.network_uid, m.proposal_value⟩ ∧
        l'.final_acceptors.isSome)) := by
  unfold Learner.countVote at h
  cases hget : alGet props m.proposal_id with
  | some ps0 =>
      rw [hget] at h
      dsimp only [Option.getD_some, Option.isSome_some, if_true] at h
      by_cases hval : m.proposal_value = ps0.value
      · rw [if_pos hval] at h
        try dsimp only at h
        by_cases hq : ps0.accept_count + 1 = (l₀.quorum_size : Int)
        · rw [if_pos hq] at h
          injection h with h1 h2
          subst h1
          exact ⟨rfl, Or.inr ⟨rfl, h2.symm, rfl⟩⟩
        · rw [if_neg hq] at h
          injection h with h1 h2
          subst h1
          exact ⟨rfl, Or.inl ⟨rfl, h2.symm, rfl⟩⟩
      · rw [if_neg hval] at h
        exact absurd h (by simp)
  | none =>
      rw [hget] at h
      dsimp only [Option.getD_none, Option.isSome_none, if_false] at h
      rw [if_pos (rfl : m.proposal_value = m.proposal_value)] at h
      try dsimp only at h
      by_cases hq : (0 : Int) + 1 = (l₀.quorum_size : Int)
      · rw [if_pos hq] at h
        injection h with h1 h2
        subst h1
        exact ⟨rfl, Or.inr ⟨rfl, h2.symm, rfl⟩⟩
      · rw [if_neg hq] at h
        injection h with h1 h2
        subst h1
        exact ⟨rfl, Or.inl ⟨rfl, h2.symm, rfl⟩⟩

theorem receive_accepted_ok_shape (l l' : Learner U V) (m : Accepted U V)
    (out : Option (Resolution U V)) (h : l.receive_accepted m = .ok l' out) :
    l'.network_uid = l.network_uid ∧
    (∀ v, l.final_value = some v →
        l'.final_value = some v ∧ out = some ⟨l.network_uid, v⟩ ∧
        (l.final_acceptors.isSome → l'.final_acceptors.isSome)) ∧
    (l.final_value = none →
        (l'.final_value = none ∧ out = none ∧
            l'.final_acceptors = l.final_acceptors) ∨
        (∃ w, l'.final_value = some w ∧ out = some ⟨l.network_uid, w⟩ ∧
            l'.final_acceptors.isSome)) := by
  unfold Learner.receive_accepted at h
  cases hfv : l.final_value with
  | some fv =>
      rw [hfv] at h
      dsimp only at h
      by_cases hc : geOpt m.proposal_id l.final_proposal_id ∧ m.proposal_value = fv
      · rw [if_pos hc] at h
        cases hfa : l.final_acceptors with
        | none =>
            rw [hfa] at h
            exact absurd h (by simp)
        | some fa =>
            rw [hfa] at h
            injection h with h1 h2
            subst h1
            refine ⟨rfl, ?_, ?_⟩
            · intro v hv
              have hv2 : some fv = some v := hv
              injection hv2 with hv3
              subst hv3
              exact ⟨rfl, h2.symm, fun _ => rfl⟩
            · intro hn
              exact absurd (show some fv = (none : Option V) from hn)
                (Option.some_ne_none fv)
      · rw [if_neg hc] at h
        injection h with h1 h2
        subst h1
        refine ⟨rfl, ?_, ?_⟩
        · intro v hv
          injection hv with hv3
          subst hv3
          exact ⟨hfv, h2.symm, fun hs => hs⟩
        · intro hn
          exact absurd hn (Option.some_ne_none fv)
  | none =>
      rw [hfv] at h
      dsimp only at h
      cases hacc : l.acceptors with
      | none =>
          rw [hacc] at h
          exact absurd h (by simp)
      | some accMap =>
          rw [hacc] at h
          dsimp only at h
          by_cases hst : pidLeOpt m.proposal_id (alGet accMap m.from_uid)
          · rw [if_pos hst] at h
            injection h with h1 h2
            subst h1
            refine ⟨rfl, ?_, fun _ => Or.inl ⟨hfv, h2.symm, rfl⟩⟩
            intro v hv
            exact Option.noConfusion hv
          · rw [if_neg hst] at h
            try dsimp only at h
            cases hprops : l.proposals with
            | none =>
                rw [hprops] at h
                exact absurd h (by simp)
            | some props =>
                rw [hprops] at h
                dsimp only at h
                cases hlast : alGet accMap m.from_uid with
                | none =>
                    rw [hlast] at h
                    try dsimp only at h
                    have hs := countVote_shape _ _ m l' out h
                    refine ⟨hs.1, ?_, ?_⟩
                    · intro v hv
                      exact Option.noConfusion hv
                    · intro _
                      rcases hs.2 with ⟨h1, h2, h3⟩ | ⟨h1, h2, h3⟩
                      · exact Or.inl ⟨h1, h2, h3⟩
                      · exact Or.inr ⟨m.proposal_value, h1, h2, h3⟩
                | some lp =>
                    rw [hlast] at h
                    try dsimp only at h
                    cases hplp : alGet props lp with
                    | none =>
                        rw [hplp] at h
                        exact absurd h (by simp)
                    | some ps =>
                        rw [hplp] at h
                        dsimp only at h
                        by_cases hmem2 : m.from_uid ∈ ps.acceptors
                        · rw [if_pos hmem2] at h
                          have hs := countVote_shape _ _ m l' out h
                          refine ⟨hs.1, ?_, ?_⟩
                          · intro v hv
                            exact Option.noConfusion hv
                          · intro _
                            rcases hs.2 with ⟨h1, h2, h3⟩ | ⟨h1, h2, h3⟩
                            · exact Or.inl ⟨h1, h2, h3⟩
                            · exact Or.inr ⟨m.proposal_value, h1, h2, h3⟩
                        · rw [if_neg hmem2] at h
                          exact absurd h (by simp)

theorem learner_run_shape (l : Learner U V) (msgs : List (Accepted U V))
    (l' : Learner U V) (outs : List (Option (Resolution U V)))
    (h : Learner.run l msgs = .ok (l', outs))
    (hld : l.final_value.isSome → l.final_acceptors.isSome) :
    l'.network_uid = l.network_uid ∧
    (l'.final_value.isSome → l'.final_acceptors.isSome) ∧
    (∀ v, l.final_value = some v → l'.final_value = some v) ∧
    (∀ r, some r ∈ outs → l'.final_value = some r.value ∧
        r.from_uid = l.network_uid) := by
  induction msgs generalizing l outs with
  | nil =>
      simp only [Learner.run] at h
      injection h with h1
      injection h1 with ha hb
      subst ha
      subst hb
      exact ⟨rfl, hld, fun v hv => hv, by simp⟩
  | cons m ms ih =>
      simp only [Learner.run] at h
      cases hr : l.receive_accepted m with
      | err s e =>
          rw [hr] at h
          exact absurd h (by simp)
      | ok l₁ out =>
          rw [hr] at h
          dsimp only at h
          cases hrun : Learner.run l₁ ms with
          | error e =>
              rw [hrun] at h
              exact absurd h (by simp)
          | ok p =>
              obtain ⟨l₂, outs'⟩ := p
              rw [hrun] at h
              dsimp only at h
              injection h with h1
              injection h1 with ha hb
              subst ha
              subst hb
              have hstep := receive_accepted_ok_shape l l₁ m out hr
              have hld₁ : l₁.final_value.isSome → l₁.final_acceptors.isSome := by
                intro hs
                cases hfv : l.final_value with
                | some v => exact (hstep.2.1 v hfv).2.2 (hld (by rw [hfv]; rfl))
                | none =>
                    rcases hstep.2.2 hfv with ⟨h1', h2', h3'⟩ | ⟨w, h1', h2', h3'⟩
                    · rw [h1'] at hs
                      cases hs
                    · exact h3'
              have hrest := ih l₁ outs' hrun hld₁
              refine ⟨hrest.1.trans hstep.1, hrest.2.1, ?_, ?_⟩
              · intro v hv
                exact hrest.2.2.1 v (hstep.2.1 v hv).1
              · intro r hrm
                rcases List.mem_cons.mp hrm with he | ht
                · cases hfv : l.final_value with
                  | some v =>
                      have hv := hstep.2.1 v hfv
                      have hro : some r = some (⟨l.network_uid, v⟩ : Resolution U V) :=
                        he.trans hv.2.1
                      injection hro with hro
                      subst hro
                      exact ⟨hrest.2.2.1 v hv.1, rfl⟩
                  | none =>
                      rcases hstep.2.2 hfv with ⟨h1', h2', h3'⟩ | ⟨w, h1', h2', h3'⟩
                      · rw [h2'] at he
                        exact Option.noConfusion he
                      · have hro : some r = some (⟨l.network_uid, w⟩ : Resolution U V) :=
                          he.trans h2'
                        injection hro with hro
                        subst hro
                        exact ⟨hrest.2.2.1 w h1', rfl⟩
                · have hr' := hrest.2.2.2 r ht
                  exact ⟨hr'.1, hr'.2.trans hstep.1⟩

/-- C4: over any successful sequence of `receive_accepted` calls from a fresh
Learner, all Resolution messages ever returned carry the same value; and once
`final_value` is set, every further `receive_accepted` call returns
`Resolution(network_uid, final_value)` unconditionally, keeping the final
value. -/
theorem learner_resolution_unique (uid : U) (q : Nat) (msgs : List (Accepted U V))
    (l' : Learner U V) (outs : List (Option (Resolution U V)))
    (h : Learner.run (Learner.init uid q) msgs = .ok (l', outs)) :
    (∀ r1 r2 : Resolution U V, some r1 ∈ outs → some r2 ∈ outs →
        r1.value = r2.value) ∧
    (∀ v, l'.final_value = some v → ∀ m : Accepted U V,
        ∃ l'', l'.receive_accepted m = .ok l'' (some ⟨uid, v⟩) ∧
          l''.final_value = some v) := by
  have hs := learner_run_shape (Learner.init uid q) msgs l' outs h
    (by intro hx; simp [Learner.init] at hx)
  refine ⟨?_, ?_⟩
  · intro r1 r2 h1 h2
    have e1 := (hs.2.2.2 r1 h1).1
    have e2 := (hs.2.2.2 r2 h2).1
    exact Option.some.inj (e1.symm.trans e2)
  · intro v hv m
    have hfa := hs.2.1 (by rw [hv]; rfl)
    obtain ⟨fa, hfa'⟩ := Option.isSome_iff_exists.mp hfa
    have huid : l'.network_uid = uid := hs.1
    by_cases hc : geOpt m.proposal_id l'.final_proposal_id ∧ m.proposal_value = v
    · refine ⟨{ l' with final_acceptors := some (setAdd fa m.from_uid) }, ?_, hv⟩
      rw [← huid]
      exact receive_accepted_resolved_match l' m v fa hv hfa' hc
    · refine ⟨l', ?_, hv⟩
      rw [← huid]
      exact receive_accepted_resolved_nomatch l' m v hv hc

/-- C4 witness: one Accepted resolves a quorum-one Learner; afterwards a new
Accepted for the same proposal is answered with the same Resolution and the
final value is kept. -/
theorem learner_resolution_unique_witness :
    ∃ l'', Learner.receive_accepted sampleResolvedLearner ⟨11, ⟨1, 1⟩, 42⟩
        = .ok l'' (some ⟨1, 42⟩) ∧ l''.final_value = some 42 :=
  (learner_resolution_unique 1 1 [sampleAccepted] sampleResolvedLearner
      [some ⟨1, 42⟩] (by rfl)).2 42 rfl ⟨11, ⟨1, 1⟩, 42⟩

theorem LStrong_count (props : List (ProposalID U × ProposalStatus U V))
    (am : List (U × ProposalID U)) (u : U) (pid : ProposalID U)
    (ps0 : ProposalStatus U V) (hpre : CVPre props am u pid)
    (hget : alGet props pid = some ps0 ∨
      (alGet props pid = none ∧ ps0.retain_count = 0 ∧ ps0.acceptors = [])) :
    LStrong (alSet props pid
      ⟨ps0.accept_count + 1, ps0.retain_count + 1, setAdd ps0.acceptors u,
        ps0.value⟩) am := by
  obtain ⟨hKA, hKP, hAM, hA2P, hP2A, hSum⟩ := hpre
  have hu0 : u ∉ ps0.acceptors := by
    rcases hget with hg | ⟨_, _, hnil⟩
    · exact fun hx => ((hP2A pid ps0 hg).2.1 u hx).1 rfl
    · rw [hnil]
      simp
  refine ⟨hKA, ?_, ?_, ?_, ?_⟩
  · rcases hget with hg | ⟨hg, _, _⟩
    · rw [alKeys_alSet_of_mem _ (mem_keys_of_alGet hg)]
      exact hKP
    · rw [alKeys_alSet_of_not_mem _ ((alGet_eq_none_iff props pid).mp hg)]
      simp [List.nodup_append, hKP, (alGet_eq_none_iff props pid).mp hg]
  · intro u' pid' hgot
    by_cases hu' : u' = u
    · subst hu'
      have he : pid' = pid := Option.some.inj (hgot.symm.trans hAM)
      subst he
      exact ⟨_, alGet_alSet_self props pid' _, mem_setAdd_self _ _⟩
    · obtain ⟨ps'', hply, hinply⟩ := hA2P u' pid' hu' hgot
      by_cases hp' : pid' = pid
      · subst hp'
        rcases hget with hg | ⟨hg, _, _⟩
        · have he : ps'' = ps0 := Option.some.inj (hply.symm.trans hg)
          subst he
          exact ⟨_, alGet_alSet_self props pid' _,
            (mem_setAdd_iff _ _ _).mpr (Or.inr hinply)⟩
        · rw [hg] at hply
          cases hply
      · rw [← alGet_alSet_ne props
          (⟨ps0.accept_count + 1, ps0.retain_count + 1, setAdd ps0.acceptors u,
            ps0.value⟩ : ProposalStatus U V) hp'] at hply
        exact ⟨ps'', hply, hinply⟩
  · intro pid' ps'' hgot'
    by_cases hp' : pid' = pid
    · subst hp'
      rw [alGet_alSet_self] at hgot'
      injection hgot' with he
      subst he
      have hnd0 : ps0.acceptors.Nodup := by
        rcases hget with hg | ⟨_, _, hnil⟩
        · exact (hP2A pid' ps0 hg).1
        · rw [hnil]
          exact List.nodup_nil
      refine ⟨nodup_setAdd u hnd0, ?_, ?_⟩
      · intro u'' hu''
        rcases (mem_setAdd_iff ps0.acceptors u u'').mp hu'' with rfl | hin
        · exact hAM
        · rcases hget with hg | ⟨_, _, hnil⟩
          · exact ((hP2A pid' ps0 hg).2.1 u'' hin).2
          · rw [hnil] at hin
            cases hin
      · have hlen : (setAdd ps0.acceptors u).length = ps0.acceptors.length + 1 :=
          length_setAdd_of_not_mem hu0
        rcases hget with hg | ⟨_, hz, hnil⟩
        · have hr := (hP2A pid' ps0 hg).2.2
          rw [hlen]
          push_cast
          omega
        · rw [hlen, hz, hnil]
          simp
    · rw [alGet_alSet_ne props _ hp'] at hgot'
      obtain ⟨hnd, hms, hr⟩ := hP2A pid' ps'' hgot'
      exact ⟨hnd, fun u'' hin => (hms u'' hin).2, hr⟩
  · rcases hget with hg | ⟨hg, hz, _⟩
    · rw [sumRetain_alSet_of_get props _ hKP hg]
      dsimp only
      omega
    · rw [sumRetain_alSet_of_not_mem props _ ((alGet_eq_none_iff props pid).mp hg)]
      dsimp only
      omega

theorem countVote_wf (l₀ : Learner U V)
    (props : List (ProposalID U × ProposalStatus U V)) (m : Accepted U V)
    (l' : Learner U V) (out : Option (Resolution U V))
    (am : List (U × ProposalID U))
    (hfv : l₀.final_value = none) (hacc : l₀.acceptors = some am)
    (hpre : CVPre props am m.from_uid m.proposal_id)
    (h : Learner.countVote l₀ props m = .ok l' out) : LWf l' := by
  unfold Learner.countVote at h
  cases hget : alGet props m.proposal_id with
  | some ps0 =>
      rw [hget] at h
      dsimp only [Option.getD_some, Option.isSome_some, if_true] at h
      by_cases hval : m.proposal_value = ps0.value
      · rw [if_pos hval] at h
        try dsimp only at h
        by_cases hq : ps0.accept_count + 1 = (l₀.quorum_size : Int)
        · rw [if_pos hq] at h
          injection h with h1 h2
          subst h1
          exact Or.inr ⟨rfl, rfl, rfl, rfl⟩
        · rw [if_neg hq] at h
          injection h with h1 h2
          subst h1
          refine Or.inl ⟨hfv, _, am, rfl, hacc, ?_⟩
          exact LStrong_count props am m.from_uid m.proposal_id ps0 hpre (Or.inl hget)
      · rw [if_neg hval] at h
        exact absurd h (by simp)
  | none =>
      rw [hget] at h
      simp only [Option.getD_none, Option.isSome_none, Bool.false_eq_true,
        if_false, if_true] at h
      try dsimp only at h
      by_cases hq : (0 : Int) + 1 = (l₀.quorum_size : Int)
      · rw [if_pos hq] at h
        injection h with h1 h2
        subst h1
        exact Or.inr ⟨rfl, rfl, rfl, rfl⟩
      · rw [if_neg hq] at h
        injection h with h1 h2
        subst h1
        refine Or.inl ⟨hfv, _, am, rfl, hacc, ?_⟩
        have hc := LStrong_count props am m.from_uid m.proposal_id
          ⟨0, 0, [], m.proposal_value⟩ hpre (Or.inr ⟨hget, rfl, rfl⟩)
        dsimp only at hc
        rw [alSet_alSet]
        exact hc

theorem receive_accepted_wf (l l' : Learner U V) (m : Accepted U V)
    (out : Option (Resolution U V)) (hwf : LWf l)
    (h : l.receive_accepted m = .ok l' out) : LWf l' := by
  rcases hwf with ⟨hfv, props, am, hprops, hacc, hs⟩ | ⟨hfvs, hfas, hpn, han⟩
  · unfold Learner.receive_accepted at h
    rw [hfv] at h
    dsimp only at h
    rw [hacc] at h
    dsimp only at h
    by_cases hst : pidLeOpt m.proposal_id (alGet am m.from_uid)
    · rw [if_pos hst] at h
      injection h with h1 h2
      subst h1
      exact Or.inl ⟨hfv, props, am, hprops, hacc, hs⟩
    · rw [if_neg hst] at h
      try dsimp only at h
      rw [hprops] at h
      try dsimp only at h
      obtain ⟨hKA, hKP, hA2P, hP2A, hSum⟩ := hs
      cases hlast : alGet am m.from_uid with
      | none =>
          rw [hlast] at h
          try dsimp only at h
          refine countVote_wf _ _ m l' out _ rfl rfl ?_ h
          have hnm : m.from_uid ∉ alKeys am := (alGet_eq_none_iff am m.from_uid).mp hlast
          refine ⟨?_, hKP, alGet_alSet_self am m.from_uid m.proposal_id, ?_, ?_, ?_⟩
          · rw [alKeys_alSet_of_not_mem _ hnm]
            simp [List.nodup_append, hKA, hnm]
          · intro u' pid' hne hgot
            rw [alGet_alSet_ne am _ hne] at hgot
            exact hA2P u' pid' hgot
          · intro pid' ps' hgot'
            obtain ⟨hnd, hms, hr⟩ := hP2A pid' ps' hgot'
            refine ⟨hnd, fun u' hu' => ?_, hr⟩
            have hgm := hms u' hu'
            have hne : u' ≠ m.from_uid := by
              rintro rfl
              rw [hlast] at hgm
              cases hgm
            exact ⟨hne, by rw [alGet_alSet_ne am _ hne]; exact hgm⟩
          · rw [length_alSet_of_not_mem _ hnm]
            push_cast
            omega
      | some lp =>
          rw [hlast] at h
          try dsimp only at h
          obtain ⟨ps, hplp, humem⟩ := hA2P m.from_uid lp hlast
          rw [hplp] at h
          try dsimp only at h
          rw [if_pos humem] at h
          refine countVote_wf _ _ m l' out _ rfl rfl ?_ h
          have hmk : m.from_uid ∈ alKeys am := mem_keys_of_alGet hlast
          have hpid_ne : m.proposal_id ≠ lp := by
            rintro rfl
            rw [hlast] at hst
            exact hst (pidLe_refl m.proposal_id)
          obtain ⟨hndps, hmems, hret⟩ := hP2A lp ps hplp
          have hKA' : (alKeys (alSet am m.from_uid m.proposal_id)).Nodup := by
            rw [alKeys_alSet_of_mem _ hmk]
            exact hKA
          have hKP₁ : (alKeys (alSet props lp
              (⟨ps.accept_count, ps.retain_count - 1,
                listRemove ps.acceptors m.from_uid, ps.value⟩ : ProposalStatus U V))).Nodup := by
            rw [alKeys_alSet_of_mem _ (mem_keys_of_alGet hplp)]
            exact hKP
          have hget₁ : alGet (alSet props lp
              (⟨ps.accept_count, ps.retain_count - 1,
                listRemove ps.acceptors m.from_uid, ps.value⟩ : ProposalStatus U V)) lp
              = some ⟨ps.accept_count, ps.retain_count - 1,
                listRemove ps.acceptors m.from_uid, ps.value⟩ :=
            alGet_alSet_self props lp _
          have hrm_len : (listRemove ps.acceptors m.from_uid).length + 1
              = ps.acceptors.length := length_listRemove humem
          have hsum₁ : sumRetain (alSet props lp
              (⟨ps.accept_count, ps.retain_count - 1,
                listRemove ps.acceptors m.from_uid, ps.value⟩ : ProposalStatus U V))
              = sumRetain props - 1 := by
            rw [sumRetain_alSet_of_get props _ hKP hplp]
            dsimp only
            omega
          have hlen_am : (alSet am m.from_uid m.proposal_id).length = am.length :=
            length_alSet_of_mem _ hmk
          by_cases hz : ps.retain_count - 1 = 0
          · rw [if_pos hz]
            have hs1 : ps.acceptors = [m.from_uid] := by
              have hlen1 : ps.acceptors.length = 1 := by omega
              obtain ⟨a, ha⟩ := List.length_eq_one.mp hlen1
              rw [ha] at humem
              rcases List.mem_singleton.mp humem with rfl
              exact ha
            refine ⟨hKA', ?_, alGet_alSet_self am m.from_uid m.proposal_id, ?_, ?_, ?_⟩
            · exact ((alErase_sublist _ lp).map Prod.fst).nodup hKP₁
            · intro u' pid' hne hgot
              rw [alGet_alSet_ne am _ hne] at hgot
              obtain ⟨ps'', hg'', hm''⟩ := hA2P u' pid' hgot
              have hne_lp : pid' ≠ lp := by
                rintro rfl
                have he : ps'' = ps := Option.some.inj (hg''.symm.trans hplp)
                subst he
                rw [hs1] at hm''
                exact hne (List.mem_singleton.mp hm'')
              refine ⟨ps'', ?_, hm''⟩
              rw [alGet_alErase_ne _ hne_lp, alGet_alSet_ne props _ hne_lp]
              exact hg''
            · intro pid' ps' hgot'
              have hne_lp : pid' ≠ lp := by
                rintro rfl
                rw [alGet_alErase_self hKP₁] at hgot'
                cases hgot'
              rw [alGet_alErase_ne _ hne_lp, alGet_alSet_ne props _ hne_lp] at hgot'
              obtain ⟨hnd, hms', hr⟩ := hP2A pid' ps' hgot'
              refine ⟨hnd, fun u'' hu'' => ?_, hr⟩
              have hgm := hms' u'' hu''
              have hne'' : u'' ≠ m.from_uid := by
                rintro rfl
                have : lp = pid' := Option.some.inj (hlast.symm.trans hgm)
                exact hne_lp this.symm
              exact ⟨hne'', by rw [alGet_alSet_ne am _ hne'']; exact hgm⟩
            · rw [sumRetain_alErase _ hKP₁ hget₁]
              dsimp only
              rw [hsum₁, hlen_am]
              omega
          · rw [if_neg hz]
            refine ⟨hKA', hKP₁, alGet_alSet_self am m.from_uid m.proposal_id, ?_, ?_, ?_⟩
            · intro u' pid' hne hgot
              rw [alGet_alSet_ne am _ hne] at hgot
              obtain ⟨ps'', hg'', hm''⟩ := hA2P u' pid' hgot
              by_cases hne_lp : pid' = lp
              · subst hne_lp
                have he : ps'' = ps := Option.some.inj (hg''.symm.trans hplp)
                subst he
                refine ⟨_, alGet_alSet_self props pid' _, ?_⟩
                exact (mem_listRemove hndps).mpr ⟨hm'', hne⟩
              · refine ⟨ps'', ?_, hm''⟩
                rw [alGet_alSet_ne props _ hne_lp]
                exact hg''
            · intro pid' ps' hgot'
              by_cases hne_lp : pid' = lp
              · subst hne_lp
                rw [alGet_alSet_self] at hgot'
                injection hgot' with he
                subst he
                refine ⟨nodup_listRemove _ hndps, ?_, ?_⟩
                · intro u'' hu''
                  obtain ⟨hin, hne''⟩ := (mem_listRemove hndps).mp hu''
                  exact ⟨hne'', by rw [alGet_alSet_ne am _ hne'']; exact hmems u'' hin⟩
                · dsimp only
                  omega
              · rw [alGet_alSet_ne props _ hne_lp] at hgot'
                obtain ⟨hnd, hms', hr⟩ := hP2A pid' ps' hgot'
                refine ⟨hnd, fun u'' hu'' => ?_, hr⟩
                have hgm := hms' u'' hu''
                have hne'' : u'' ≠ m.from_uid := by
                  rintro rfl
                  have he : lp = pid' := Option.some.inj (hlast.symm.trans hgm)
                  exact hne_lp he.symm
                exact ⟨hne'', by rw [alGet_alSet_ne am _ hne'']; exact hgm⟩
            · rw [hsum₁, hlen_am]
              omega
  · obtain ⟨v, hfv⟩ := Option.isSome_iff_exists.mp hfvs
    obtain ⟨fa, hfa⟩ := Option.isSome_iff_exists.mp hfas
    by_cases hc : geOpt m.proposal_id l.final_proposal_id ∧ m.proposal_value = v
    · have hm := receive_accepted_resolved_match l m v fa hfv hfa hc
      rw [hm] at h
      injection h with h1 h2
      subst h1
      exact Or.inr ⟨by simp [hfv], rfl, hpn, han⟩
    · have hm := receive_accepted_resolved_nomatch l m v hfv hc
      rw [hm] at h
      injection h with h1 h2
      subst h1
      exact Or.inr ⟨hfvs, hfas, hpn, han⟩

theorem LWf_init (uid : U) (q : Nat) : LWf (Learner.init uid q : Learner U V) := by
  refine Or.inl ⟨rfl, [], [], rfl, rfl, ?_, ?_, ?_, ?_, ?_⟩
  · exact List.nodup_nil
  · exact List.nodup_nil
  · intro u pid hg
    cases hg
  · intro pid ps hg
    cases hg
  · rfl

theorem learner_run_wf (l : Learner U V) (msgs : List (Accepted U V))
    (l' : Learner U V) (outs : List (Option (Resolution U V)))
    (hwf : LWf l) (h : Learner.run l msgs = .ok (l', outs)) : LWf l' := by
  induction msgs generalizing l outs with
  | nil =>
      simp only [Learner.run] at h
      injection h with h1
      injection h1 with ha hb
      subst ha
      exact hwf
  | cons m ms ih =>
      simp only [Learner.run] at h
      cases hr : l.receive_accepted m with
      | err s e =>
          rw [hr] at h
          exact absurd h (by simp)
      | ok l₁ out =>
          rw [hr] at h
          dsimp only at h
          cases hrun : Learner.run l₁ ms with
          | error e =>
              rw [hrun] at h
              exact absurd h (by simp)
          | ok p =>
              obtain ⟨l₂, outs'⟩ := p
              rw [hrun] at h
              dsimp only at h
              injection h with h1
              injection h1 with ha hb
              subst ha
              exact ih l₁ outs' (receive_accepted_wf l l₁ m out hwf hr) hrun

/-- C7: along any successful `receive_accepted` sequence from a fresh
Learner, while unresolved every proposals-map entry keeps
`retain_count = |acceptors set of the entry|`, and the retain counts summed
over all entries equal the size of the acceptor-to-last-vote map — the
deletion of an entry exactly when its retain count reaches zero preserves
both. -/
theorem learner_retain_invariant (uid : U) (q : Nat) (msgs : List (Accepted U V))
    (l' : Learner U V) (outs : List (Option (Resolution U V)))
    (h : Learner.run (Learner.init uid q) msgs = .ok (l', outs))
    (props : List (ProposalID U × ProposalStatus U V))
    (hp : l'.proposals = some props) :
    (∀ pid ps, (pid, ps) ∈ props → ps.retain_count = (ps.acceptors.length : Int)) ∧
    (∃ am, l'.acceptors = some am ∧ sumRetain props = (am.length : Int)) := by
  have hwf := learner_run_wf (Learner.init uid q) msgs l' outs (LWf_init uid q) h
  rcases hwf with ⟨hfv, props', am, hp', hacc, hs⟩ | ⟨_, _, hpn, _⟩
  · rw [hp] at hp'
    injection hp' with he
    subst he
    obtain ⟨hKA, hKP, hA2P, hP2A, hSum⟩ := hs
    refine ⟨?_, am, hacc, hSum⟩
    intro pid ps hmem
    exact (hP2A pid ps (alGet_of_mem hKP hmem)).2.2
  · rw [hpn] at hp
    cases hp

/-- C7 witness: after one Accepted under quorum two, the single proposals
entry retains exactly its one acceptor and the retain counts sum to the size
of the acceptors map. -/
theorem learner_retain_invariant_witness :
    (∀ pid ps,
        (pid, ps) ∈ [((⟨1, 1⟩ : ProposalID Nat), (⟨1, 1, [10], 42⟩ : ProposalStatus Nat Nat))] →
          ps.retain_count = (ps.acceptors.length : Int)) ∧
    (∃ am, sampleCountingLearner.acceptors = some am ∧
        sumRetain [((⟨1, 1⟩ : ProposalID Nat), (⟨1, 1, [10], 42⟩ : ProposalStatus Nat Nat))]
          = (am.length : Int)) :=
  learner_retain_invariant 1 2 [sampleAccepted] sampleCountingLearner [none]
    (by rfl) [(⟨1, 1⟩, ⟨1, 1, [10], 42⟩)] rfl
